import Mathlib

/-!
Shallow embedding of `miami_herald_scraper.py` (Miami Herald article
scraper) and verification of its specification claims.

Python strings are modelled as `List Char`.  External collaborators
(the HTTP feed fetch, the `googlenewsdecoder` decode call) are modelled
as explicit function parameters; pure library calls whose behaviour the
source pins down exactly (`re.sub`, `str.split`, `str.rstrip`,
`datetime.strptime` on the seven fixed format strings, `sorted` with a
key and `reverse=True`) are modelled as concrete functions.
-/

/-- Python strings, modelled as lists of characters. -/
abbrev LChar := List Char

/-- Boolean prefix test: `startsW p s` is true when `p` is an initial
segment of `s` (models `str.startswith` and literal regex matching). -/
def startsW : LChar → LChar → Bool
  | [], _ => true
  | _ :: _, [] => false
  | p :: ps, c :: cs => p == c && startsW ps cs

/-- Substring containment, modelling Python's `needle in haystack`. -/
def containsSub (pat : LChar) : LChar → Bool
  | [] => startsW pat []
  | c :: rest => startsW pat (c :: rest) || containsSub pat rest

/- ===================== URL normalisation (lines 80-88) =====================
    def normalize_url(url):
        if not url:
            return ""
        url = re.sub(r"https?://amp\.", "https://www.", url)
        url = url.split("?")[0].split("#")[0].rstrip("/")
        if url.startswith("http://"):
            url = "https://" + url[7:]
        return url
-/

/-- The regex alternative `https://amp.` (the greedy `s?` branch, tried first). -/
def patAmpS : LChar := "https://amp.".data

/-- The regex alternative `http://amp.` . -/
def patAmp : LChar := "http://amp.".data

/-- The replacement text `https://www.` of the `re.sub` call. -/
def wwwBlock : LChar := "https://www.".data

/-- The scheme literal `http://` tested by `url.startswith("http://")`. -/
def httpLit : LChar := "http://".data

/-- The scheme literal `https://` prepended by the upgrade step. -/
def httpsLit : LChar := "https://".data

/-- Fuelled worker for `re.sub(r"https?://amp\.", "https://www.", url)`.
The fuel argument only makes the recursion structural; `subAmpF_fuel`
shows the result does not depend on it once it is at least the length
of the string. -/
def subAmpF : Nat → LChar → LChar
  | _, [] => []
  | 0, c :: rest => c :: rest
  | fuel + 1, c :: rest =>
    if startsW patAmpS (c :: rest) then wwwBlock ++ subAmpF fuel ((c :: rest).drop 12)
    else if startsW patAmp (c :: rest) then wwwBlock ++ subAmpF fuel ((c :: rest).drop 11)
    else c :: subAmpF fuel rest

/-- Models `re.sub(r"https?://amp\.", "https://www.", url)`: scan left to
right; at each position a greedy `s?` first tries `https://amp.`, then
`http://amp.`; on a match the replacement is emitted and scanning resumes
after the matched text (non-overlapping), otherwise one character is kept. -/
def subAmp (s : LChar) : LChar := subAmpF s.length s

/-- Models `s.split(c)[0]`: the part of the string before the first
occurrence of `c` (the whole string when `c` does not occur). -/
def splitHead (c : Char) (s : LChar) : LChar := s.takeWhile (fun x => x ≠ c)

/-- Models `s.rstrip("/")`: remove all trailing `/` characters. -/
def rstripSlash (s : LChar) : LChar := (s.reverse.dropWhile (fun x => x == '/')).reverse

/-- Models the final scheme upgrade `if url.startswith("http://"):
url = "https://" + url[7:]`. -/
def schemeUpgrade (s : LChar) : LChar :=
  if startsW httpLit s then httpsLit ++ s.drop 7 else s

/-- The URL Normalizer `normalize_url` (source lines 80-88). -/
def normalize_url (url : LChar) : LChar :=
  if url = [] then []
  else schemeUpgrade (rstripSlash (splitHead '#' (splitHead '?' (subAmp url))))

/- ===================== Idempotence of the URL Normalizer ===================== -/

/-- Occurrence of the regex `https?://amp\.` anywhere in the string. -/
def hasPat : LChar → Bool
  | [] => false
  | c :: rest => startsW patAmpS (c :: rest) || startsW patAmp (c :: rest) || hasPat rest

/-- The tail of `patAmpS` after its leading `h`. -/
def ampTailS : LChar := "ttps://amp.".data

/-- The tail of `patAmp` after its leading `h`. -/
def ampTail1 : LChar := "ttp://amp.".data

/-- All nonempty proper suffixes of the two regex alternatives. -/
def sufList : List LChar :=
  (patAmp.tails.drop 1 ++ patAmpS.tails.drop 1).filter (fun q => !q.isEmpty)

/-- The common suffix `amp.` of the two regex alternatives. -/
def ampDot : LChar := "amp.".data

/- ===================== Data model and feed processing =====================
Source lines 132-178 (`fetch_gnews_rss`), 181-198 (`collect_all_articles`),
69-77 (`resolve_google_news_url`), 206-221 (`resolve_urls`),
241-251 (`deduplicate_by_url`).
-/

/-- The publisher display name `Miami Herald`. -/
def mhName : LChar := "Miami Herald".data

/-- The publisher domain marker `miamiherald.com`. -/
def mhDomain : LChar := "miamiherald.com".data

/-- ASCII whitespace, modelling Python's `\s` / `str.strip` whitespace
classes (the source data never contains non-ASCII whitespace). -/
def isPyWs (c : Char) : Bool :=
  c == ' ' || c == Char.ofNat 9 || c == Char.ofNat 10 || c == Char.ofNat 13 ||
    c == Char.ofNat 11 || c == Char.ofNat 12

/-- Left whitespace strip. -/
def lstripWs (s : LChar) : LChar := s.dropWhile isPyWs

/-- Right whitespace strip: removes the maximal all-whitespace suffix. -/
def rstripWs : LChar → LChar
  | [] => []
  | c :: rest =>
    if (rstripWs rest).isEmpty && isPyWs c then [] else c :: rstripWs rest

/-- Models Python `str.strip()`. -/
def pyStrip (s : LChar) : LChar := rstripWs (lstripWs s)

/-- The dash alternatives `[-–—]` of the title-suffix regex
(hyphen, en dash, em dash). -/
def isDashMH (c : Char) : Bool :=
  c == '-' || c == Char.ofNat 8211 || c == Char.ofNat 8212

/-- Does the regex `\s*[-–—]\s*Miami Herald\s*$` match starting at
this position and reaching the end of the string?  The greedy `\s*` runs are
forced to be maximal (a shorter run would put a whitespace character where a
dash / the literal is required), so the match test is deterministic. -/
def matchMHAt (s : LChar) : Bool :=
  match s.dropWhile isPyWs with
  | [] => false
  | d :: s2 =>
    isDashMH d &&
      (startsW mhName (s2.dropWhile isPyWs) &&
        ((s2.dropWhile isPyWs).drop 12).all isPyWs)

/-- Models `re.sub(r"\s*[-–—]\s*Miami Herald\s*$", "", title)`:
the match, when it exists, extends to the end of the string, so the result
is the prefix before the leftmost position at which the pattern matches. -/
def subMH : LChar → LChar
  | [] => []
  | c :: rest => if matchMHAt (c :: rest) then [] else c :: subMH rest

/-- A parsed feed entry as consumed by the per-entry loop of
`fetch_gnews_rss` (lines 152-176): `entry.get("title","")`,
`entry.get("published","")`, `entry.get("link","")`, and the optional
`entry.source["title"]` (absent when the entry has no source dict). -/
structure FeedEntry where
  title : LChar
  published : LChar
  link : LChar
  source : Option LChar
deriving DecidableEq, Repr

/-- The article-candidate dict built by `fetch_gnews_rss` (lines 169-176). -/
structure Article where
  title : LChar
  publish_date : LChar
  google_url : LChar
  url : LChar
  author : LChar
  summary : LChar
deriving DecidableEq, Repr

/-- The stored title: suffix-stripping regex then `.strip()` (line 154). -/
def entryTitle (e : FeedEntry) : LChar := pyStrip (subMH e.title)

/-- The `source` string of the loop: `""` when the entry has no source
dict, otherwise `entry.source.get("title", "")` (lines 162-164). -/
def entrySource (e : FeedEntry) : LChar := e.source.getD []

/-- The dict appended for one surviving entry (lines 169-176): summary is
set to `""` (line 160), `url` starts empty, `author` empty. -/
def mkArticle (e : FeedEntry) : Article :=
  { title := entryTitle e, publish_date := e.published, google_url := e.link,
    url := [], author := [], summary := [] }

/-- The per-entry loop of `fetch_gnews_rss` (lines 152-176): an entry is
skipped exactly when its source string is nonempty and does not contain
`Miami Herald` (lines 166-167).  The surrounding HTTP request is an
external effect; this function consumes the parsed `feed.entries`. -/
def fetch_gnews_rss_entries : List FeedEntry → List Article
  | [] => []
  | e :: rest =>
    if !(entrySource e).isEmpty && !containsSub mhName (entrySource e) then
      fetch_gnews_rss_entries rest
    else mkArticle e :: fetch_gnews_rss_entries rest

/-- The fixed query catalog `RSS_QUERIES` (lines 27-57). -/
def RSS_QUERIES : List LChar :=
  [ "site:miamiherald.com".data,
    "site:miamiherald.com news".data,
    "site:miamiherald.com local".data,
    "site:miamiherald.com crime".data,
    "site:miamiherald.com politics".data,
    "site:miamiherald.com business".data,
    "site:miamiherald.com sports".data,
    "site:miamiherald.com miami".data,
    "site:miamiherald.com florida".data,
    "site:miamiherald.com immigration".data,
    "site:miamiherald.com entertainment".data,
    "site:miamiherald.com opinion".data,
    "site:miamiherald.com real estate".data,
    "site:miamiherald.com education".data,
    "site:miamiherald.com environment".data,
    "site:miamiherald.com health".data,
    "site:miamiherald.com dolphins".data,
    "site:miamiherald.com heat".data,
    "site:miamiherald.com marlins".data,
    "site:miamiherald.com college".data,
    "site:miamiherald.com broward".data,
    "site:miamiherald.com miami-dade".data,
    "site:miamiherald.com keys".data,
    "site:miamiherald.com trump".data,
    "site:miamiherald.com housing".data,
    "site:miamiherald.com community".data,
    "site:miamiherald.com cuba".data,
    "site:miamiherald.com haiti".data,
    "site:miamiherald.com technology".data ]

/-- The discovery dedup key `article["title"].lower().strip()` (line 190).
`Char.toLower` models `str.lower` on the ASCII range. -/
def titleKey (a : Article) : LChar := pyStrip (a.title.map Char.toLower)

/-- The inner merge loop of `collect_all_articles` (lines 189-193): the
accumulating dict `all_articles` is modelled as an insertion-ordered
association list; a candidate is added iff its key is nonempty and not
yet present (`if key and key not in all_articles`). -/
def mergeArticles (m : List (LChar × Article)) : List Article → List (LChar × Article)
  | [] => m
  | a :: rest =>
    if !(titleKey a).isEmpty && !(m.any (fun kv => kv.1 == titleKey a)) then
      mergeArticles (m ++ [(titleKey a, a)]) rest
    else mergeArticles m rest

/-- The Discovery Orchestrator `collect_all_articles` (lines 181-198).
The network fetch per query is the external parameter `fetch`; the result
is `list(all_articles.values())` in dict insertion order.  The logging and
the `time.sleep(1)` pacing have no effect on the returned data. -/
def collect_all_articles (fetch : LChar → List Article) : List Article :=
  (RSS_QUERIES.foldl (fun m q => mergeArticles m (fetch q)) []).map Prod.snd

/-- Outcome of one `new_decoderv1(google_url)` call (an external, pure
decode): it may raise, or return a result dict whose `status` truthiness
and `decoded_url` string the caller inspects. -/
inductive DecodeOutcome where
  | raises
  | returns (status : Bool) (decoded_url : LChar)
deriving DecidableEq, Repr

/-- The Redirect Resolver `resolve_google_news_url` (lines 69-77): adopt
`result["decoded_url"]` when the call succeeds with truthy `status` and a
nonempty `decoded_url`; on any exception or falsy fields return the
original `google_url`. -/
def resolve_google_news_url (decoder : LChar → DecodeOutcome) (google_url : LChar) : LChar :=
  match decoder google_url with
  | .raises => google_url
  | .returns st du => if st && !du.isEmpty then du else google_url

/-- The per-article body of the `resolve_urls` loop (lines 211-218):
normalize and adopt the resolved URL when it contains the domain marker,
otherwise fall back to the stored `google_url`. -/
def resolveStep (decoder : LChar → DecodeOutcome) (a : Article) : Article :=
  if containsSub mhDomain (resolve_google_news_url decoder a.google_url) then
    { a with url := normalize_url (resolve_google_news_url decoder a.google_url) }
  else { a with url := a.google_url }

/-- The Resolution Stage `resolve_urls` (lines 206-221); the `resolved`
counter only feeds logging. -/
def resolve_urls (decoder : LChar → DecodeOutcome) (articles : List Article) : List Article :=
  articles.map (resolveStep decoder)

/-- Worker of `deduplicate_by_url` with the `seen` dict modelled as the
list of its keys (lines 243-249). -/
def deduplicate_by_url_go (seen : List LChar) : List Article → List Article
  | [] => []
  | a :: rest =>
    if seen.any (fun u => u == normalize_url a.url) then deduplicate_by_url_go seen rest
    else a :: deduplicate_by_url_go (normalize_url a.url :: seen) rest

/-- The Dedup Stage `deduplicate_by_url` (lines 241-251). -/
def deduplicate_by_url (articles : List Article) : List Article :=
  deduplicate_by_url_go [] articles

/-- First article of the URL-dedup scenario: resolved to
`https://www.miamiherald.com/news/a1.html?utm=x`. -/
def utmArticle1 : Article :=
  { title := "t1".data, publish_date := [], google_url := [],
    url := "https://www.miamiherald.com/news/a1.html?utm=x".data,
    author := [], summary := [] }

/-- Second article of the URL-dedup scenario: resolved to
`https://www.miamiherald.com/news/a1.html`. -/
def utmArticle2 : Article :=
  { title := "t2".data, publish_date := [], google_url := [],
    url := "https://www.miamiherald.com/news/a1.html".data,
    author := [], summary := [] }

/- ===================== Title suffix stripping (C9) ===================== -/

/-- Count of non-whitespace characters. -/
def cntNonWs (s : LChar) : Nat := (s.filter (fun c => !isPyWs c)).length

/-- The scenario feed entry: title `Storm Hits Florida - Miami Herald`,
attributed source `Miami Herald`. -/
def stormEntry : FeedEntry :=
  { title := "Storm Hits Florida - Miami Herald".data, published := [], link := [],
    source := some mhName }

/-- A feed entry with no source dict. -/
def eNoSource : FeedEntry :=
  { title := "A".data, published := [], link := [], source := none }

/-- A feed entry attributed to a different publisher. -/
def eOtherSource : FeedEntry :=
  { title := "B".data, published := [], link := [], source := some ("CNN".data) }

/- ===================== Resolution Stage (C2, C5) ===================== -/

/-- A decoder that always raises (one failure mode of `new_decoderv1`). -/
def decoderRaises : LChar → DecodeOutcome := fun _ => DecodeOutcome.raises

/-- Candidate whose redirect link contains no publisher marker and is not
in normal form. -/
def c2Article : Article :=
  { title := "c2".data, publish_date := [], google_url := "http://example.com/a?b".data,
    url := [], author := [], summary := [] }

/-- A decoder that decodes every link to a fixed publisher URL that is
not in normal form. -/
def decoderToMH : LChar → DecodeOutcome :=
  fun _ => DecodeOutcome.returns true ("http://www.miamiherald.com/x?q".data)

/-- A discovered candidate carrying a Google News redirect link. -/
def gArticle : Article :=
  { title := "g".data, publish_date := [],
    google_url := "http://news.google.com/rss/x".data,
    url := [], author := [], summary := [] }

/-- Candidate whose redirect link itself contains the domain marker but
is not in normal form. -/
def c5Article : Article :=
  { title := "c5".data, publish_date := [],
    google_url := "http://www.miamiherald.com/a?b=c".data,
    url := [], author := [], summary := [] }

/- ===================== Discovery Orchestrator (C6) ===================== -/

/-- Membership test of a key among the association-list keys, as the
Python `key not in all_articles` test. -/
def containsKeyB (m : List (LChar × Article)) (k : LChar) : Bool :=
  m.any (fun kv => kv.1 == k)

/-- First discovery-scenario candidate, title `Budget Vote Passes`. -/
def budget1 : Article :=
  { title := "Budget Vote Passes".data, publish_date := [], google_url := "u1".data,
    url := [], author := [], summary := [] }

/-- Second discovery-scenario candidate, title `budget vote passes ` —
a case/whitespace variant of the first. -/
def budget2 : Article :=
  { title := "budget vote passes ".data, publish_date := [], google_url := "u2".data,
    url := [], author := [], summary := [] }

/-- A fetch stub on which every query returns the two scenario
candidates. -/
def fetchBudget : LChar → List Article := fun _ => [budget1, budget2]

/- ===================== Date parsing (lines 96-124) =====================
`parse_date` strips the string, tries seven `datetime.strptime` formats in
order, then falls back to an anchored `re.match` for an ISO date-time
prefix.  CPython's `strptime` compiles each format to a fixed regular
expression (case-insensitive; each format whitespace matches `\s+`; the
numeric directives are ordered alternations of one- and two-digit forms)
and then validates the fields through the `datetime` constructor; a
`ValueError` from either step is caught by the source and the next format
is tried.  The components below implement those per-directive regexes
with their alternation order; the per-format runners thread the ordered
candidate lists through the rest of the pattern, which reproduces the
regex backtracking order, and the first full match is then checked for
leftover input and field validity.  The `%Z` directive matches an
environment-dependent set of timezone names (`time.tzname` plus
`utc`/`gmt`); that name set is the explicit parameter `tz`.  Timezone
information of `%z`/`%Z` is discarded by `dt.replace(tzinfo=None)` in the
source, so only its syntax and the `timezone` constructor's strict
24-hour bound affect the result. -/

/-- One parsed `datetime` value; `tzinfo` is dropped by the source
(`dt.replace(tzinfo=None)`), `microsecond` is never populated by the
seven formats. -/
structure PyDateTime where
  year : Nat
  month : Nat
  day : Nat
  hour : Nat
  minute : Nat
  second : Nat
deriving DecidableEq, Repr

/-- The value `datetime.min`. -/
def dtMin : PyDateTime := ⟨1, 1, 1, 0, 0, 0⟩

/-- Field-lexicographic comparison, modelling `datetime` order. -/
def dtLe (a b : PyDateTime) : Bool :=
  a.year < b.year || (a.year == b.year && (a.month < b.month || (a.month == b.month &&
    (a.day < b.day || (a.day == b.day && (a.hour < b.hour || (a.hour == b.hour &&
    (a.minute < b.minute || (a.minute == b.minute && a.second ≤ b.second)))))))))

/-- Numeric value of a digit character. -/
def digVal (c : Char) : Nat := c.toNat - 48

/-- Candidates of the `%d` directive `(3[01]|[12]\d|0[1-9]|[1-9]| [1-9])`,
in alternation order. -/
def candsD (s : LChar) : List (Nat × LChar) :=
  (match s with
   | a :: b :: r =>
     (if a == '3' && (b == '0' || b == '1') then [(30 + digVal b, r)] else []) ++
     (if (a == '1' || a == '2') && b.isDigit then [(digVal a * 10 + digVal b, r)] else []) ++
     (if a == '0' && b.isDigit && b != '0' then [(digVal b, r)] else [])
   | _ => []) ++
  (match s with
   | a :: r => if a.isDigit && a != '0' then [(digVal a, r)] else []
   | _ => []) ++
  (match s with
   | a :: b :: r => if a == ' ' && b.isDigit && b != '0' then [(digVal b, r)] else []
   | _ => [])

/-- Candidates of the `%m` directive `(1[0-2]|0[1-9]|[1-9])`. -/
def candsMo (s : LChar) : List (Nat × LChar) :=
  (match s with
   | a :: b :: r =>
     (if a == '1' && (b == '0' || b == '1' || b == '2') then [(10 + digVal b, r)] else []) ++
     (if a == '0' && b.isDigit && b != '0' then [(digVal b, r)] else [])
   | _ => []) ++
  (match s with
   | a :: r => if a.isDigit && a != '0' then [(digVal a, r)] else []
   | _ => [])

/-- Candidates of the `%H` directive `(2[0-3]|[0-1]\d|\d)`. -/
def candsH (s : LChar) : List (Nat × LChar) :=
  (match s with
   | a :: b :: r =>
     (if a == '2' && (b == '0' || b == '1' || b == '2' || b == '3')
      then [(20 + digVal b, r)] else []) ++
     (if (a == '0' || a == '1') && b.isDigit then [(digVal a * 10 + digVal b, r)] else [])
   | _ => []) ++
  (match s with
   | a :: r => if a.isDigit then [(digVal a, r)] else []
   | _ => [])

/-- Candidates of the `%M` directive `([0-5]\d|\d)`. -/
def candsMin (s : LChar) : List (Nat × LChar) :=
  (match s with
   | a :: b :: r =>
     if ('0' ≤ a && a ≤ '5') && b.isDigit then [(digVal a * 10 + digVal b, r)] else []
   | _ => []) ++
  (match s with
   | a :: r => if a.isDigit then [(digVal a, r)] else []
   | _ => [])

/-- Candidates of the `%S` directive `(6[01]|[0-5]\d|\d)`. -/
def candsS (s : LChar) : List (Nat × LChar) :=
  (match s with
   | a :: b :: r =>
     (if a == '6' && (b == '0' || b == '1') then [(60 + digVal b, r)] else []) ++
     (if ('0' ≤ a && a ≤ '5') && b.isDigit then [(digVal a * 10 + digVal b, r)] else [])
   | _ => []) ++
  (match s with
   | a :: r => if a.isDigit then [(digVal a, r)] else []
   | _ => [])

/-- The `%Y` directive: exactly four digits. -/
def pY4 : LChar → Option (Nat × LChar)
  | a :: b :: c :: d :: r =>
    if a.isDigit && b.isDigit && c.isDigit && d.isDigit then
      some (digVal a * 1000 + digVal b * 100 + digVal c * 10 + digVal d, r)
    else none
  | _ => none

/-- Case-insensitive prefix match against a lowercase-stored name. -/
def startsWCI : LChar → LChar → Bool
  | [], _ => true
  | _ :: _, [] => false
  | p :: ps, c :: cs => p == c.toLower && startsWCI ps cs

/-- Try each name in order; consume the first that matches
(the names used below are never prefixes of one another, so the regex
alternation order of CPython cannot change which name matches). -/
def matchNameList (names : List LChar) (s : LChar) : Option LChar :=
  names.findSome? (fun n => if startsWCI n s then some (s.drop n.length) else none)

/-- Valued name alternation (months). -/
def matchMonth (names : List (Nat × LChar)) (s : LChar) : Option (Nat × LChar) :=
  names.findSome? (fun nv =>
    if startsWCI nv.2 s then some (nv.1, s.drop nv.2.length) else none)

/-- The `%a` weekday-abbreviation names (locale `en_US` / C). -/
def weekAbbrs : List LChar :=
  [ "mon".data, "tue".data, "wed".data, "thu".data, "fri".data, "sat".data, "sun".data ]

/-- The `%b` month-abbreviation names with month numbers. -/
def monthAbbrs : List (Nat × LChar) :=
  [ (1, "jan".data), (2, "feb".data), (3, "mar".data), (4, "apr".data), (5, "may".data),
    (6, "jun".data), (7, "jul".data), (8, "aug".data), (9, "sep".data), (10, "oct".data),
    (11, "nov".data), (12, "dec".data) ]

/-- The `%B` full month names with month numbers. -/
def monthFulls : List (Nat × LChar) :=
  [ (1, "january".data), (2, "february".data), (3, "march".data), (4, "april".data),
    (5, "may".data), (6, "june".data), (7, "july".data), (8, "august".data),
    (9, "september".data), (10, "october".data), (11, "november".data),
    (12, "december".data) ]

/-- Format whitespace compiles to `\s+`: at least one whitespace
character, matched greedily (a shorter run would put whitespace where the
following directive requires a non-whitespace character, except before
`%d`, whose ` [1-9]` alternative consumes the same digit either way). -/
def pWs1 : LChar → Option LChar
  | c :: r => if isPyWs c then some (r.dropWhile isPyWs) else none
  | [] => none

/-- A literal format character under `re.IGNORECASE`. -/
def pLitCI (ch : Char) : LChar → Option LChar
  | c :: r => if c.toLower == ch.toLower then some r else none
  | [] => none

/-- A literal character of the case-sensitive fallback regex. -/
def pLitCS (ch : Char) : LChar → Option LChar
  | c :: r => if c == ch then some r else none
  | [] => none

/-- Exactly two digits (`\d{2}`). -/
def p2dig : LChar → Option (Nat × LChar)
  | a :: b :: r => if a.isDigit && b.isDigit then some (digVal a * 10 + digVal b, r) else none
  | _ => none

/-- The minutes/seconds group `:?[0-5]\d` of the `%z` regex. -/
def pOff2sub60 : LChar → Option (Nat × LChar)
  | ':' :: a :: b :: r =>
    if ('0' ≤ a && a ≤ '5') && b.isDigit then some (digVal a * 10 + digVal b, r) else none
  | a :: b :: r =>
    if ('0' ≤ a && a ≤ '5') && b.isDigit then some (digVal a * 10 + digVal b, r) else none
  | _ => none

/-- The optional fraction `(\.\d{1,6})?` of the `%z` regex (greedy, up to
six digits; an unmatched dot is left in place). -/
def pFracOpt (s : LChar) : LChar :=
  match s with
  | '.' :: r =>
    if (r.takeWhile Char.isDigit).isEmpty then s
    else r.drop (min (r.takeWhile Char.isDigit).length 6)
  | _ => s

/-- The `%z` directive `([+-]\d\d:?[0-5]\d(:?[0-5]\d(\.\d{1,6})?)?|(?-i:Z))`,
followed by the `timezone` constructor's strict 24-hour bound (its
`ValueError` is caught by the source like a parse failure). -/
def pTZz : LChar → Option LChar
  | 'Z' :: r => some r
  | c :: rest =>
    if c == '+' || c == '-' then
      match p2dig rest with
      | some (hh, r1) =>
        match pOff2sub60 r1 with
        | some (mi, r2) =>
          match pOff2sub60 r2 with
          | some (ss, r3) =>
            if hh * 3600 + mi * 60 + ss < 86400 then some (pFracOpt r3) else none
          | none => if hh * 3600 + mi * 60 < 86400 then some r2 else none
        | none => none
      | none => none
    else none
  | [] => none

/-- Gregorian leap year. -/
def isLeap (y : Nat) : Bool := (y % 4 == 0 && y % 100 != 0) || y % 400 == 0

/-- Days in a month. -/
def daysInMonth (y m : Nat) : Nat :=
  if m == 2 then (if isLeap y then 29 else 28)
  else if m == 4 || m == 6 || m == 9 || m == 11 then 30 else 31

/-- The `datetime` constructor's validity check (`MINYEAR = 1`,
`MAXYEAR = 9999`; seconds above 59 are matched by the `%S` regex but then
rejected by the constructor). -/
def validDT (dt : PyDateTime) : Bool :=
  1 ≤ dt.year && dt.year ≤ 9999 && 1 ≤ dt.month && dt.month ≤ 12 &&
  1 ≤ dt.day && dt.day ≤ daysInMonth dt.year dt.month &&
  dt.hour ≤ 23 && dt.minute ≤ 59 && dt.second ≤ 59

/-- One `try: datetime.strptime(...)` attempt: first full regex match,
then the leftover-input check, then constructor validation. -/
def strptimeAttempt (p : LChar → Option (PyDateTime × LChar)) (s : LChar) : Option PyDateTime :=
  match p s with
  | some (dt, rest) => if rest.isEmpty && validDT dt then some dt else none
  | none => none

/-- Format 1: `%a, %d %b %Y %H:%M:%S %Z`. -/
def runFmt1 (tz : List LChar) (s : LChar) : Option (PyDateTime × LChar) :=
  (matchNameList weekAbbrs s).bind fun r0 =>
  (pLitCI ',' r0).bind fun r1 =>
  (pWs1 r1).bind fun r2 =>
  (candsD r2).findSome? fun dd =>
  (pWs1 dd.2).bind fun r3 =>
  (matchMonth monthAbbrs r3).bind fun mo =>
  (pWs1 mo.2).bind fun r4 =>
  (pY4 r4).bind fun yy =>
  (pWs1 yy.2).bind fun r5 =>
  (candsH r5).findSome? fun hh =>
  (pLitCI ':' hh.2).bind fun r6 =>
  (candsMin r6).findSome? fun mi =>
  (pLitCI ':' mi.2).bind fun r7 =>
  (candsS r7).findSome? fun ss =>
  (pWs1 ss.2).bind fun r8 =>
  (matchNameList tz r8).bind fun r9 =>
  some (⟨yy.1, mo.1, dd.1, hh.1, mi.1, ss.1⟩, r9)

/-- Format 2: `%a, %d %b %Y %H:%M:%S %z`. -/
def runFmt2 (s : LChar) : Option (PyDateTime × LChar) :=
  (matchNameList weekAbbrs s).bind fun r0 =>
  (pLitCI ',' r0).bind fun r1 =>
  (pWs1 r1).bind fun r2 =>
  (candsD r2).findSome? fun dd =>
  (pWs1 dd.2).bind fun r3 =>
  (matchMonth monthAbbrs r3).bind fun mo =>
  (pWs1 mo.2).bind fun r4 =>
  (pY4 r4).bind fun yy =>
  (pWs1 yy.2).bind fun r5 =>
  (candsH r5).findSome? fun hh =>
  (pLitCI ':' hh.2).bind fun r6 =>
  (candsMin r6).findSome? fun mi =>
  (pLitCI ':' mi.2).bind fun r7 =>
  (candsS r7).findSome? fun ss =>
  (pWs1 ss.2).bind fun r8 =>
  (pTZz r8).bind fun r9 =>
  some (⟨yy.1, mo.1, dd.1, hh.1, mi.1, ss.1⟩, r9)

/-- Format 3: `%Y-%m-%dT%H:%M:%S%z`. -/
def runFmt3 (s : LChar) : Option (PyDateTime × LChar) :=
  (pY4 s).bind fun yy =>
  (pLitCI '-' yy.2).bind fun r1 =>
  (candsMo r1).findSome? fun mo =>
  (pLitCI '-' mo.2).bind fun r2 =>
  (candsD r2).findSome? fun dd =>
  (pLitCI 'T' dd.2).bind fun r3 =>
  (candsH r3).findSome? fun hh =>
  (pLitCI ':' hh.2).bind fun r4 =>
  (candsMin r4).findSome? fun mi =>
  (pLitCI ':' mi.2).bind fun r5 =>
  (candsS r5).findSome? fun ss =>
  (pTZz ss.2).bind fun r9 =>
  some (⟨yy.1, mo.1, dd.1, hh.1, mi.1, ss.1⟩, r9)

/-- Format 4: `%Y-%m-%dT%H:%M:%S`. -/
def runFmt4 (s : LChar) : Option (PyDateTime × LChar) :=
  (pY4 s).bind fun yy =>
  (pLitCI '-' yy.2).bind fun r1 =>
  (candsMo r1).findSome? fun mo =>
  (pLitCI '-' mo.2).bind fun r2 =>
  (candsD r2).findSome? fun dd =>
  (pLitCI 'T' dd.2).bind fun r3 =>
  (candsH r3).findSome? fun hh =>
  (pLitCI ':' hh.2).bind fun r4 =>
  (candsMin r4).findSome? fun mi =>
  (pLitCI ':' mi.2).bind fun r5 =>
  (candsS r5).findSome? fun ss =>
  some (⟨yy.1, mo.1, dd.1, hh.1, mi.1, ss.1⟩, ss.2)

/-- Format 5: `%Y-%m-%d`. -/
def runFmt5 (s : LChar) : Option (PyDateTime × LChar) :=
  (pY4 s).bind fun yy =>
  (pLitCI '-' yy.2).bind fun r1 =>
  (candsMo r1).findSome? fun mo =>
  (pLitCI '-' mo.2).bind fun r2 =>
  (candsD r2).findSome? fun dd =>
  some (⟨yy.1, mo.1, dd.1, 0, 0, 0⟩, dd.2)

/-- Format 6: `%b %d, %Y`. -/
def runFmt6 (s : LChar) : Option (PyDateTime × LChar) :=
  (matchMonth monthAbbrs s).bind fun mo =>
  (pWs1 mo.2).bind fun r1 =>
  (candsD r1).findSome? fun dd =>
  (pLitCI ',' dd.2).bind fun r2 =>
  (pWs1 r2).bind fun r3 =>
  (pY4 r3).bind fun yy =>
  some (⟨yy.1, mo.1, dd.1, 0, 0, 0⟩, yy.2)

/-- Format 7: `%B %d, %Y`. -/
def runFmt7 (s : LChar) : Option (PyDateTime × LChar) :=
  (matchMonth monthFulls s).bind fun mo =>
  (pWs1 mo.2).bind fun r1 =>
  (candsD r1).findSome? fun dd =>
  (pLitCI ',' dd.2).bind fun r2 =>
  (pWs1 r2).bind fun r3 =>
  (pY4 r3).bind fun yy =>
  some (⟨yy.1, mo.1, dd.1, 0, 0, 0⟩, yy.2)

/-- Fallback (lines 117-122): the anchored, case-sensitive
`re.match(r"(\d{4}-\d{2}-\d{2})T(\d{2}:\d{2}:\d{2})", s)` — trailing
input after the match is allowed — followed by
`strptime(f"{g1} {g2}", "%Y-%m-%d %H:%M:%S")` on the captured digits.
On exactly-two-digit fields followed by a fixed delimiter, that
strptime's numeric regexes accept precisely months 01-12, days 01-31,
hours 00-23, minutes 00-59, seconds 00-61, and the constructor then
enforces day-of-month, year ≥ 1 and seconds ≤ 59: together exactly
`validDT`. -/
def fallbackIso (s : LChar) : Option PyDateTime :=
  (pY4 s).bind fun yy =>
  (pLitCS '-' yy.2).bind fun r1 =>
  (p2dig r1).bind fun mo =>
  (pLitCS '-' mo.2).bind fun r2 =>
  (p2dig r2).bind fun dd =>
  (pLitCS 'T' dd.2).bind fun r3 =>
  (p2dig r3).bind fun hh =>
  (pLitCS ':' hh.2).bind fun r4 =>
  (p2dig r4).bind fun mi =>
  (pLitCS ':' mi.2).bind fun r5 =>
  (p2dig r5).bind fun ss =>
  (if validDT ⟨yy.1, mo.1, dd.1, hh.1, mi.1, ss.1⟩
   then some ⟨yy.1, mo.1, dd.1, hh.1, mi.1, ss.1⟩ else none)

/-- The Date Normalizer `parse_date` (lines 96-124): empty check, strip,
the seven formats in priority order, then the ISO fallback; `None` when
nothing matches.  `tz` is the environment's `%Z` timezone-name set. -/
def parse_date (tz : List LChar) (s0 : LChar) : Option PyDateTime :=
  if s0.isEmpty then none
  else
    match strptimeAttempt (runFmt1 tz) (pyStrip s0) with
    | some dt => some dt
    | none =>
    match strptimeAttempt runFmt2 (pyStrip s0) with
    | some dt => some dt
    | none =>
    match strptimeAttempt runFmt3 (pyStrip s0) with
    | some dt => some dt
    | none =>
    match strptimeAttempt runFmt4 (pyStrip s0) with
    | some dt => some dt
    | none =>
    match strptimeAttempt runFmt5 (pyStrip s0) with
    | some dt => some dt
    | none =>
    match strptimeAttempt runFmt6 (pyStrip s0) with
    | some dt => some dt
    | none =>
    match strptimeAttempt runFmt7 (pyStrip s0) with
    | some dt => some dt
    | none => fallbackIso (pyStrip s0)

/-- The timezone-name set of a `TZ=UTC` environment
(`time.tzname = ("UTC", "UTC")` plus the always-present `utc`/`gmt`). -/
def tzUtc : List LChar := [ "utc".data, "gmt".data ]

/- ============== Filter Stage and Exporter (lines 229-238, 254-276) ============== -/

/-- The keep condition of the Filter Stage:
`dt is None or dt >= CUTOFF_DATE` (line 234). -/
def keepByDate (tz : List LChar) (cutoff : PyDateTime) (a : Article) : Bool :=
  match parse_date tz a.publish_date with
  | none => true
  | some dt => dtLe cutoff dt

/-- The Filter Stage `filter_by_date` (lines 229-238); `CUTOFF_DATE` is
the runtime value `datetime.now() - timedelta(days=30)`, passed here as
the parameter `cutoff`; the kept/removed counts only feed logging. -/
def filter_by_date (tz : List LChar) (cutoff : PyDateTime) : List Article → List Article
  | [] => []
  | a :: rest =>
    match parse_date tz a.publish_date with
    | none => a :: filter_by_date tz cutoff rest
    | some dt =>
      if dtLe cutoff dt then a :: filter_by_date tz cutoff rest
      else filter_by_date tz cutoff rest

/-- The sort key of `write_csv`:
`parse_date(a.get("publish_date")) or datetime.min` (line 259). -/
def sortKey (tz : List LChar) (a : Article) : PyDateTime :=
  (parse_date tz a.publish_date).getD dtMin

/-- Insert into a descending-sorted list, after all entries with a key
strictly greater than the new key and before equal-keyed ones; since
`sortByKeyDesc` inserts the later input elements first, earlier input
elements land before equal-keyed later ones, which is the stable order. -/
def ordInsertDesc (key : Article → PyDateTime) (x : Article) : List Article → List Article
  | [] => [x]
  | y :: ys => if dtLe (key y) (key x) then x :: y :: ys else y :: ordInsertDesc key x ys

/-- Stable insertion sort on the descending key order. -/
def sortByKeyDesc (key : Article → PyDateTime) : List Article → List Article
  | [] => []
  | x :: xs => ordInsertDesc key x (sortByKeyDesc key xs)

/-- Models `sorted(articles, key=lambda a: parse_date(...) or datetime.min,
reverse=True)` (lines 257-261): CPython's sort is stable, and with
`reverse=True` equal-key elements keep their original order; the unique
such ordering — descending keys, ties in input order — is what stable
insertion sort on the descending order computes. -/
def sorted_articles (tz : List LChar) (articles : List Article) : List Article :=
  sortByKeyDesc (sortKey tz) articles

/-- One CSV data row (the fixed `fieldnames` order, line 256). -/
structure CsvRow where
  title : LChar
  url : LChar
  publish_date : LChar
  author : LChar
  summary : LChar
deriving DecidableEq, Repr

/-- The digit character of `n < 10`. -/
def digitChar (n : Nat) : Char := Char.ofNat (48 + n)

/-- Zero-padded four-digit decimal (`%Y` of `strftime`). -/
def pad4 (n : Nat) : LChar :=
  [digitChar (n / 1000 % 10), digitChar (n / 100 % 10), digitChar (n / 10 % 10),
    digitChar (n % 10)]

/-- Zero-padded two-digit decimal (`%m`, `%d` of `strftime`). -/
def pad2 (n : Nat) : LChar := [digitChar (n / 10 % 10), digitChar (n % 10)]

/-- Models `dt.strftime("%Y-%m-%d")` (line 271), zero-padded fields. -/
def fmtYMD (dt : PyDateTime) : LChar :=
  pad4 dt.year ++ '-' :: (pad2 dt.month ++ '-' :: pad2 dt.day)

/-- The row dict written for one article (lines 268-274): date formatted
as `YYYY-MM-DD` or empty, summary length-capped at 500. -/
def csvRowOf (tz : List LChar) (a : Article) : CsvRow :=
  { title := a.title, url := a.url,
    publish_date :=
      match parse_date tz a.publish_date with
      | some dt => fmtYMD dt
      | none => [],
    author := a.author, summary := a.summary.take 500 }

/-- The data rows of `write_csv` (lines 254-276), in file order; the
header row and the file I/O itself are the external effect. -/
def write_csv_rows (tz : List LChar) (articles : List Article) : List CsvRow :=
  (sorted_articles tz articles).map (csvRowOf tz)

/-- A candidate older than the cutoff. -/
def artOld : Article :=
  { title := "old".data, publish_date := "2025-01-01".data, google_url := [],
    url := [], author := [], summary := [] }

/-- A candidate inside the window. -/
def artNew : Article :=
  { title := "new".data, publish_date := "2025-10-01".data, google_url := [],
    url := [], author := [], summary := [] }

/-- A candidate with an unparseable date. -/
def artUnk : Article :=
  { title := "unk".data, publish_date := "not a date".data, google_url := [],
    url := [], author := [], summary := [] }

/-- A concrete cutoff instant (2025-09-12 00:00:00). -/
def cutoffSep : PyDateTime := ⟨2025, 9, 12, 0, 0, 0⟩

/-- The `YYYY-MM-DD` shape: four digits, dash, two digits, dash, two
digits. -/
def isYmdShape (l : LChar) : Bool :=
  match l with
  | [c1, c2, c3, c4, c5, c6, c7, c8, c9, c10] =>
    c1.isDigit && c2.isDigit && c3.isDigit && c4.isDigit && c5 == '-' &&
      c6.isDigit && c7.isDigit && c8 == '-' && c9.isDigit && c10.isDigit
  | _ => false

/-- A candidate whose date string parses to `datetime.min`. -/
def artMin : Article :=
  { title := "min".data, publish_date := "0001-01-01".data, google_url := [],
    url := [], author := [], summary := [] }

/-! ### Properties and claim theorems -/

lemma subAmpF_fuel (f1 : Nat) : ∀ (f2 : Nat) (s : LChar), s.length ≤ f1 → s.length ≤ f2 →
    subAmpF f1 s = subAmpF f2 s := by
  induction f1 with
  | zero =>
    intro f2 s h1 _
    have : s = [] := List.length_eq_zero.mp (Nat.le_zero.mp h1)
    subst this
    cases f2 <;> simp [subAmpF]
  | succ f1 ih =>
    intro f2 s h1 h2
    match s, f2 with
    | [], f2 => cases f2 <;> simp [subAmpF]
    | c :: rest, f2' + 1 =>
      simp only [List.length_cons] at h1 h2
      cases hS : startsW patAmpS (c :: rest) with
      | true =>
        simp only [subAmpF, hS, if_true]
        congr 1
        exact ih f2' _ (by simp only [List.length_drop, List.length_cons]; omega)
          (by simp only [List.length_drop, List.length_cons]; omega)
      | false =>
        cases hA : startsW patAmp (c :: rest) with
        | true =>
          simp only [subAmpF, hS, hA, if_true, Bool.false_eq_true, if_false]
          congr 1
          exact ih f2' _ (by simp only [List.length_drop, List.length_cons]; omega)
            (by simp only [List.length_drop, List.length_cons]; omega)
        | false =>
          simp only [subAmpF, hS, hA, Bool.false_eq_true, if_false]
          congr 1
          exact ih f2' rest (by omega) (by omega)

lemma subAmp_nil : subAmp [] = [] := rfl

lemma subAmp_matchS (s : LChar) (h : startsW patAmpS s = true) :
    subAmp s = wwwBlock ++ subAmp (s.drop 12) := by
  match s, h with
  | c :: rest, h =>
    show subAmpF (rest.length + 1) (c :: rest) = _
    simp only [subAmpF, h, if_true]
    congr 1
    exact subAmpF_fuel rest.length _ _
      (by simp only [List.length_drop, List.length_cons]; omega) (le_refl _)

lemma subAmp_match1 (s : LChar) (hS : startsW patAmpS s = false) (h : startsW patAmp s = true) :
    subAmp s = wwwBlock ++ subAmp (s.drop 11) := by
  match s, h with
  | c :: rest, h =>
    show subAmpF (rest.length + 1) (c :: rest) = _
    simp only [subAmpF, h, hS, if_true, Bool.false_eq_true, if_false]
    congr 1
    exact subAmpF_fuel rest.length _ _
      (by simp only [List.length_drop, List.length_cons]; omega) (le_refl _)

lemma subAmp_nomatch (c : Char) (rest : LChar)
    (hS : startsW patAmpS (c :: rest) = false) (h1 : startsW patAmp (c :: rest) = false) :
    subAmp (c :: rest) = c :: subAmp rest := by
  show subAmpF (rest.length + 1) (c :: rest) = _
  simp only [subAmpF, hS, h1, Bool.false_eq_true, if_false]
  rfl

example : normalize_url "http://amp.miamiherald.com/x/?utm=1#frag".data
    = "https://www.miamiherald.com/x".data := by decide

example : normalize_url "https://www.miamiherald.com/news/a1.html?utm=x".data
    = "https://www.miamiherald.com/news/a1.html".data := by decide

example : normalize_url "".data = "".data := by decide

example : normalize_url "?".data = "".data := by decide

lemma patAmpS_cons : patAmpS = 'h' :: ampTailS := rfl

lemma patAmp_cons : patAmp = 'h' :: ampTail1 := rfl

lemma startsW_append_left (q : LChar) : ∀ (l b : LChar), startsW q l = true →
    startsW q (l ++ b) = true := by
  induction q with
  | nil => intro l b _; rfl
  | cons qh q ih =>
    intro l b h
    match l with
    | [] => exact absurd h (by simp [startsW])
    | c :: rest =>
      simp only [startsW, Bool.and_eq_true, List.cons_append] at h ⊢
      exact ⟨h.1, ih rest b h.2⟩

lemma hasPat_append_left : ∀ (a b : LChar), hasPat a = true → hasPat (a ++ b) = true := by
  intro a b
  induction a with
  | nil => intro h; exact absurd h (by simp [hasPat])
  | cons c rest ih =>
    intro h
    simp only [hasPat, Bool.or_eq_true, List.cons_append] at h ⊢
    rcases h with (h | h) | h
    · exact Or.inl (Or.inl (startsW_append_left _ _ _ h))
    · exact Or.inl (Or.inr (startsW_append_left _ _ _ h))
    · exact Or.inr (ih h)

lemma hasPat_append_right : ∀ (a b : LChar), hasPat b = true → hasPat (a ++ b) = true := by
  intro a b h
  induction a with
  | nil => exact h
  | cons c rest ih =>
    simp only [List.cons_append, hasPat, Bool.or_eq_true]
    exact Or.inr ih

lemma sufList_heads : sufList.all (fun q => !(q.head? == some 'h')) = true := by decide

lemma sufList_tails : sufList.all (fun q => q.tail.isEmpty || sufList.contains q.tail) = true := by
  decide

lemma mem_sufList_ne_nil {q : LChar} (h : q ∈ sufList) : q ≠ [] := by
  have := (List.mem_filter.mp h).2
  simpa using this

lemma mem_sufList_head_ne {q : LChar} (h : q ∈ sufList) : q.head? ≠ some 'h' := by
  have := (List.all_eq_true.mp sufList_heads) q h
  simpa using this

lemma mem_sufList_tail {q : LChar} (h : q ∈ sufList) (hne : q.tail ≠ []) : q.tail ∈ sufList := by
  have := (List.all_eq_true.mp sufList_tails) q h
  simp only [Bool.or_eq_true, List.isEmpty_iff] at this
  rcases this with h1 | h1
  · exact absurd h1 hne
  · exact List.mem_of_elem_eq_true h1

lemma startsW_sufList : ∀ (n : Nat) (s q : LChar), s.length ≤ n → q ∈ sufList →
    startsW q (subAmp s) = true → startsW q s = true := by
  intro n
  induction n with
  | zero =>
    intro s q hlen _ h
    have hs : s = [] := List.length_eq_zero.mp (Nat.le_zero.mp hlen)
    subst hs
    rw [subAmp_nil] at h
    exact h
  | succ n ih =>
    intro s q hlen hq h
    match s with
    | [] => rw [subAmp_nil] at h; exact h
    | c :: rest =>
      simp only [List.length_cons] at hlen
      obtain ⟨qh, q', rfl⟩ : ∃ qh q', q = qh :: q' := by
        cases q with
        | nil => exact absurd rfl (mem_sufList_ne_nil hq)
        | cons a b => exact ⟨a, b, rfl⟩
      have hqh : qh ≠ 'h' := by
        intro hcontra
        exact mem_sufList_head_ne hq (by simp [hcontra])
      cases hS : startsW patAmpS (c :: rest) with
      | true =>
        rw [subAmp_matchS _ hS] at h
        rw [show wwwBlock = 'h' :: "ttps://www.".data from rfl] at h
        simp only [List.cons_append, startsW, Bool.and_eq_true, beq_iff_eq] at h
        exact absurd h.1 hqh
      | false =>
        cases hA : startsW patAmp (c :: rest) with
        | true =>
          rw [subAmp_match1 _ hS hA] at h
          rw [show wwwBlock = 'h' :: "ttps://www.".data from rfl] at h
          simp only [List.cons_append, startsW, Bool.and_eq_true, beq_iff_eq] at h
          exact absurd h.1 hqh
        | false =>
          rw [subAmp_nomatch c rest hS hA] at h
          simp only [startsW, Bool.and_eq_true] at h ⊢
          refine ⟨h.1, ?_⟩
          cases hq'e : q' with
          | nil => rfl
          | cons a b =>
            have hne : q' ≠ [] := by rw [hq'e]; simp
            have hmem : q' ∈ sufList := mem_sufList_tail hq hne
            rw [← hq'e]
            exact ih rest q' (by omega) hmem h.2

lemma hasPat_wwwBlock (r : LChar) : hasPat (wwwBlock ++ r) = hasPat r := by
  simp [wwwBlock, patAmpS, patAmp, hasPat, startsW]

lemma hasPat_subAmp : ∀ (n : Nat) (s : LChar), s.length ≤ n → hasPat (subAmp s) = false := by
  intro n
  induction n with
  | zero =>
    intro s hlen
    have hs : s = [] := List.length_eq_zero.mp (Nat.le_zero.mp hlen)
    subst hs
    rfl
  | succ n ih =>
    intro s hlen
    match s with
    | [] => rfl
    | c :: rest =>
      simp only [List.length_cons] at hlen
      cases hS : startsW patAmpS (c :: rest) with
      | true =>
        rw [subAmp_matchS _ hS, hasPat_wwwBlock]
        exact ih _ (by simp only [List.length_drop, List.length_cons]; omega)
      | false =>
        cases hA : startsW patAmp (c :: rest) with
        | true =>
          rw [subAmp_match1 _ hS hA, hasPat_wwwBlock]
          exact ih _ (by simp only [List.length_drop, List.length_cons]; omega)
        | false =>
          rw [subAmp_nomatch c rest hS hA]
          have h1 : startsW patAmpS (c :: subAmp rest) = false := by
            cases hS2 : startsW patAmpS (c :: subAmp rest) with
            | false => rfl
            | true =>
              exfalso
              rw [patAmpS_cons] at hS2
              simp only [startsW, Bool.and_eq_true, beq_iff_eq] at hS2
              obtain ⟨hc, htail⟩ := hS2
              have hmem : ampTailS ∈ sufList := by decide
              have hre := startsW_sufList rest.length rest _ (le_refl _) hmem htail
              have hfull : startsW patAmpS (c :: rest) = true := by
                rw [patAmpS_cons]
                simp only [startsW, Bool.and_eq_true, beq_iff_eq]
                exact ⟨hc, hre⟩
              rw [hfull] at hS
              exact Bool.noConfusion hS
          have h2 : startsW patAmp (c :: subAmp rest) = false := by
            cases hA2 : startsW patAmp (c :: subAmp rest) with
            | false => rfl
            | true =>
              exfalso
              rw [patAmp_cons] at hA2
              simp only [startsW, Bool.and_eq_true, beq_iff_eq] at hA2
              obtain ⟨hc, htail⟩ := hA2
              have hmem : ampTail1 ∈ sufList := by decide
              have hre := startsW_sufList rest.length rest _ (le_refl _) hmem htail
              have hfull : startsW patAmp (c :: rest) = true := by
                rw [patAmp_cons]
                simp only [startsW, Bool.and_eq_true, beq_iff_eq]
                exact ⟨hc, hre⟩
              rw [hfull] at hA
              exact Bool.noConfusion hA
          simp only [hasPat, h1, h2, Bool.false_or]
          exact ih rest (by omega)

lemma subAmp_of_noPat : ∀ (s : LChar), hasPat s = false → subAmp s = s := by
  intro s
  induction s with
  | nil => intro _; rfl
  | cons c rest ih =>
    intro h
    simp only [hasPat, Bool.or_eq_false_iff] at h
    rw [subAmp_nomatch c rest h.1.1 h.1.2, ih h.2]

lemma hasPat_prefix {a b : LChar} (h : hasPat (a ++ b) = false) : hasPat a = false := by
  cases e : hasPat a with
  | false => rfl
  | true => rw [hasPat_append_left a b e] at h; exact Bool.noConfusion h

lemma hasPat_http_append (t : LChar) :
    hasPat (httpLit ++ t) = (startsW ampDot t || hasPat t) := by
  simp [httpLit, patAmpS, patAmp, ampDot, hasPat, startsW]

lemma hasPat_https_append (t : LChar) :
    hasPat (httpsLit ++ t) = (startsW ampDot t || hasPat t) := by
  simp [httpsLit, patAmpS, patAmp, ampDot, hasPat, startsW]

lemma startsW_eq_append {q : LChar} : ∀ {s : LChar}, startsW q s = true →
    s = q ++ s.drop q.length := by
  induction q with
  | nil => intro s _; rfl
  | cons qh q ih =>
    intro s h
    match s with
    | [] => exact absurd h (by simp [startsW])
    | c :: rest =>
      simp only [startsW, Bool.and_eq_true, beq_iff_eq] at h
      obtain ⟨rfl, h2⟩ := h
      simpa using ih h2

lemma dropWhile_head_not {p : Char → Bool} : ∀ (l : LChar) {c : Char},
    (l.dropWhile p).head? = some c → p c = false := by
  intro l
  induction l with
  | nil => intro c h; exact Option.noConfusion h
  | cons x t ih =>
    intro c h
    rw [List.dropWhile_cons] at h
    by_cases hx : p x = true
    · rw [if_pos hx] at h; exact ih h
    · rw [if_neg hx] at h
      simp only [List.head?_cons, Option.some.injEq] at h
      subst h
      exact Bool.eq_false_iff.mpr hx

lemma rstripSlash_getLast (s : LChar) : (rstripSlash s).getLast? ≠ some '/' := by
  intro h
  rw [rstripSlash, List.getLast?_eq_head?_reverse, List.reverse_reverse] at h
  have := dropWhile_head_not s.reverse h
  simp at this

lemma rstripSlash_append (s : LChar) :
    rstripSlash s ++ (s.reverse.takeWhile (fun x => x == '/')).reverse = s := by
  rw [rstripSlash]
  conv_rhs => rw [← List.reverse_reverse s,
    ← List.takeWhile_append_dropWhile (fun x => x == '/') s.reverse]
  rw [List.reverse_append]

lemma mem_rstripSlash {x : Char} {s : LChar} (h : x ∈ rstripSlash s) : x ∈ s := by
  rw [rstripSlash, List.mem_reverse] at h
  exact List.mem_reverse.mp ((List.dropWhile_sublist _).mem h)

lemma splitHead_eq_self {c : Char} {s : LChar} (h : c ∉ s) : splitHead c s = s := by
  rw [splitHead, List.takeWhile_eq_self_iff]
  intro x hx
  simp only [ne_eq, decide_eq_true_eq]
  rintro rfl
  exact h hx

lemma rstripSlash_eq_self {s : LChar} (h : s.getLast? ≠ some '/') : rstripSlash s = s := by
  rw [rstripSlash]
  rw [List.getLast?_eq_head?_reverse] at h
  have hdw : s.reverse.dropWhile (fun x => x == '/') = s.reverse := by
    cases e : s.reverse with
    | nil => simp
    | cons x t =>
      rw [e] at h
      simp only [List.head?_cons, ne_eq, Option.some.injEq] at h
      rw [List.dropWhile_cons, if_neg (by simpa using h)]
  rw [hdw, List.reverse_reverse]

lemma schemeUpgrade_eq_self {s : LChar} (h : startsW httpLit s = false) :
    schemeUpgrade s = s := by
  simp [schemeUpgrade, h]

lemma schemeUpgrade_props {d : LChar} (hpat : hasPat d = false) (hlast : d.getLast? ≠ some '/')
    (hq : '?' ∉ d) (hh : '#' ∉ d) :
    hasPat (schemeUpgrade d) = false ∧ '?' ∉ schemeUpgrade d ∧ '#' ∉ schemeUpgrade d ∧
    (schemeUpgrade d).getLast? ≠ some '/' ∧ startsW httpLit (schemeUpgrade d) = false := by
  cases hs : startsW httpLit d with
  | false =>
    rw [schemeUpgrade_eq_self hs]
    exact ⟨hpat, hq, hh, hlast, hs⟩
  | true =>
    have hde : d = httpLit ++ d.drop 7 := startsW_eq_append hs
    set t := d.drop 7 with ht
    have htne : t ≠ [] := by
      intro hcontra
      rw [hcontra, List.append_nil] at hde
      rw [hde] at hlast
      exact hlast (by decide)
    have hup : schemeUpgrade d = httpsLit ++ t := by
      rw [schemeUpgrade, if_pos hs]
    rw [hup]
    have hpat' : (startsW ampDot t || hasPat t) = false := by
      rw [← hasPat_http_append, ← hde]
      exact hpat
    refine ⟨?_, ?_, ?_, ?_, ?_⟩
    · rw [hasPat_https_append]
      exact hpat'
    · intro hmem
      rcases List.mem_append.mp hmem with hm | hm
      · revert hm; decide
      · exact hq (hde ▸ List.mem_append.mpr (Or.inr hm))
    · intro hmem
      rcases List.mem_append.mp hmem with hm | hm
      · revert hm; decide
      · exact hh (hde ▸ List.mem_append.mpr (Or.inr hm))
    · obtain ⟨x, hx⟩ : ∃ x, t.getLast? = some x := by
        cases e : t.getLast? with
        | none => exact absurd (List.getLast?_eq_none_iff.mp e) htne
        | some x => exact ⟨x, rfl⟩
      rw [List.getLast?_append, hx]
      intro hcontra
      apply hlast
      rw [hde, List.getLast?_append, hx]
      simpa using hcontra
    · simp [httpsLit, httpLit, startsW]

lemma normalize_url_props (u : LChar) :
    hasPat (normalize_url u) = false ∧ '?' ∉ normalize_url u ∧ '#' ∉ normalize_url u ∧
    (normalize_url u).getLast? ≠ some '/' ∧ startsW httpLit (normalize_url u) = false := by
  rw [normalize_url]
  by_cases hu : u = []
  · rw [if_pos hu]
    refine ⟨rfl, by simp, by simp, by simp, rfl⟩
  · rw [if_neg hu]
    have ha : hasPat (subAmp u) = false := hasPat_subAmp u.length u (le_refl _)
    have hb : hasPat (splitHead '?' (subAmp u)) = false := by
      apply hasPat_prefix (b := (subAmp u).dropWhile (fun x => x ≠ '?'))
      rw [splitHead, List.takeWhile_append_dropWhile]
      exact ha
    have hbq : '?' ∉ splitHead '?' (subAmp u) := by
      intro hmem
      have := List.mem_takeWhile_imp hmem
      simp at this
    have hc : hasPat (splitHead '#' (splitHead '?' (subAmp u))) = false := by
      apply hasPat_prefix (b := (splitHead '?' (subAmp u)).dropWhile (fun x => x ≠ '#'))
      rw [splitHead, List.takeWhile_append_dropWhile]
      exact hb
    have hcq : '?' ∉ splitHead '#' (splitHead '?' (subAmp u)) := by
      intro hmem
      exact hbq ((List.takeWhile_sublist _).mem hmem)
    have hch : '#' ∉ splitHead '#' (splitHead '?' (subAmp u)) := by
      intro hmem
      have := List.mem_takeWhile_imp hmem
      simp at this
    have hd : hasPat (rstripSlash (splitHead '#' (splitHead '?' (subAmp u)))) = false := by
      apply hasPat_prefix
        (b := (((splitHead '#' (splitHead '?' (subAmp u))).reverse.takeWhile
          (fun x => x == '/')).reverse))
      rw [rstripSlash_append]
      exact hc
    have hdq : '?' ∉ rstripSlash (splitHead '#' (splitHead '?' (subAmp u))) :=
      fun hmem => hcq (mem_rstripSlash hmem)
    have hdh : '#' ∉ rstripSlash (splitHead '#' (splitHead '?' (subAmp u))) :=
      fun hmem => hch (mem_rstripSlash hmem)
    have hdl := rstripSlash_getLast (splitHead '#' (splitHead '?' (subAmp u)))
    exact schemeUpgrade_props hd hdl hdq hdh

lemma normalize_url_fixed {v : LChar} (hpat : hasPat v = false) (hq : '?' ∉ v) (hh : '#' ∉ v)
    (hlast : v.getLast? ≠ some '/') (hhttp : startsW httpLit v = false) :
    normalize_url v = v := by
  rw [normalize_url]
  by_cases hv : v = []
  · rw [if_pos hv, hv]
  · rw [if_neg hv, subAmp_of_noPat v hpat, splitHead_eq_self hq, splitHead_eq_self hh,
      rstripSlash_eq_self hlast, schemeUpgrade_eq_self hhttp]

/-- C1: the URL Normalizer `normalize_url` is idempotent — for every string
`u`, including the empty string, `normalize_url (normalize_url u) =
normalize_url u`. -/
theorem C1_normalize_url_idempotent (u : LChar) :
    normalize_url (normalize_url u) = normalize_url u := by
  obtain ⟨h1, h2, h3, h4, h5⟩ := normalize_url_props u
  exact normalize_url_fixed h1 h2 h3 h4 h5

/- ===================== Dedup Stage properties (C7) ===================== -/

lemma dedup_go_not_seen : ∀ (arts : List Article) (seen : List LChar) (a : Article),
    a ∈ deduplicate_by_url_go seen arts →
    seen.any (fun u => u == normalize_url a.url) = false := by
  intro arts
  induction arts with
  | nil => intro seen a h; simp [deduplicate_by_url_go] at h
  | cons x rest ih =>
    intro seen a h
    simp only [deduplicate_by_url_go] at h
    by_cases hx : seen.any (fun u => u == normalize_url x.url) = true
    · rw [if_pos hx] at h
      exact ih seen a h
    · rw [if_neg hx] at h
      rcases List.mem_cons.mp h with rfl | hmem
      · exact Bool.eq_false_iff.mpr hx
      · have h2 := ih _ a hmem
        simp only [List.any_cons, Bool.or_eq_false_iff] at h2
        exact h2.2

lemma dedup_go_first : ∀ (arts : List Article) (seen : List LChar) (a : Article),
    a ∈ deduplicate_by_url_go seen arts →
    (arts.filter (fun b => normalize_url b.url == normalize_url a.url)).head? = some a := by
  intro arts
  induction arts with
  | nil => intro seen a h; simp [deduplicate_by_url_go] at h
  | cons x rest ih =>
    intro seen a h
    simp only [deduplicate_by_url_go] at h
    by_cases hx : seen.any (fun u => u == normalize_url x.url) = true
    · rw [if_pos hx] at h
      have hnot := dedup_go_not_seen rest seen a h
      have hne : (normalize_url x.url == normalize_url a.url) = false := by
        cases he : normalize_url x.url == normalize_url a.url with
        | false => rfl
        | true =>
          exfalso
          have : normalize_url x.url = normalize_url a.url := by simpa using he
          rw [this] at hx
          rw [hx] at hnot
          exact Bool.noConfusion hnot
      rw [List.filter_cons, hne]
      simp only [Bool.false_eq_true, if_false]
      exact ih seen a h
    · rw [if_neg hx] at h
      rcases List.mem_cons.mp h with rfl | hmem
      · rw [List.filter_cons]
        simp
      · have hnot := dedup_go_not_seen rest _ a hmem
        simp only [List.any_cons, Bool.or_eq_false_iff] at hnot
        have hne : (normalize_url x.url == normalize_url a.url) = false := hnot.1
        rw [List.filter_cons, hne]
        simp only [Bool.false_eq_true, if_false]
        exact ih _ a hmem

lemma dedup_go_sublist : ∀ (arts : List Article) (seen : List LChar),
    List.Sublist (deduplicate_by_url_go seen arts) arts := by
  intro arts
  induction arts with
  | nil => intro seen; simp [deduplicate_by_url_go]
  | cons x rest ih =>
    intro seen
    simp only [deduplicate_by_url_go]
    by_cases hx : seen.any (fun u => u == normalize_url x.url) = true
    · rw [if_pos hx]
      exact List.Sublist.cons x (ih seen)
    · rw [if_neg hx]
      exact List.Sublist.cons₂ x (ih _)

lemma dedup_go_pairwise : ∀ (arts : List Article) (seen : List LChar),
    (deduplicate_by_url_go seen arts).Pairwise
      (fun a b => normalize_url a.url ≠ normalize_url b.url) := by
  intro arts
  induction arts with
  | nil => intro seen; simp [deduplicate_by_url_go]
  | cons x rest ih =>
    intro seen
    simp only [deduplicate_by_url_go]
    by_cases hx : seen.any (fun u => u == normalize_url x.url) = true
    · rw [if_pos hx]
      exact ih seen
    · rw [if_neg hx]
      refine List.Pairwise.cons ?_ (ih _)
      intro b hb hcontra
      have hnot := dedup_go_not_seen rest _ b hb
      simp only [List.any_cons, Bool.or_eq_false_iff] at hnot
      have : (normalize_url x.url == normalize_url b.url) = false := hnot.1
      rw [hcontra] at this
      simp at this

lemma dedup_go_complete : ∀ (arts : List Article) (seen : List LChar) (a : Article),
    a ∈ arts → seen.any (fun u => u == normalize_url a.url) = false →
    ∃ b ∈ deduplicate_by_url_go seen arts, normalize_url b.url = normalize_url a.url := by
  intro arts
  induction arts with
  | nil => intro seen a ha _; exact absurd ha (List.not_mem_nil a)
  | cons x rest ih =>
    intro seen a ha hseen
    simp only [deduplicate_by_url_go]
    rcases List.mem_cons.mp ha with rfl | hmem
    · rw [if_neg (by simp [hseen])]
      exact ⟨a, List.mem_cons_self _ _, rfl⟩
    · by_cases hx : seen.any (fun u => u == normalize_url x.url) = true
      · rw [if_pos hx]
        exact ih seen a hmem hseen
      · rw [if_neg hx]
        by_cases heq : normalize_url x.url = normalize_url a.url
        · exact ⟨x, List.mem_cons_self _ _, heq⟩
        · obtain ⟨b, hb, hb2⟩ := ih (normalize_url x.url :: seen) a hmem
            (by simp [hseen]; intro hcontra; exact heq hcontra)
          exact ⟨b, List.mem_cons_of_mem _ hb, hb2⟩

/-- C7: the Dedup Stage keeps exactly the first candidate seen for each
distinct normalized url (the head of the input filtered to that
normalized url) and drops later duplicates (the output is a sublist of
the input), so its output never contains two records with the same
normalized url; every input url class is represented in the output; and
the two scenario candidates whose urls differ only by a `?utm=x` query
string collapse to the first one. -/
theorem C7_dedup_by_url_first_wins :
    (∀ (articles : List Article),
      (deduplicate_by_url articles).Pairwise
        (fun a b => normalize_url a.url ≠ normalize_url b.url) ∧
      List.Sublist (deduplicate_by_url articles) articles ∧
      (∀ a ∈ deduplicate_by_url articles,
        (articles.filter (fun b => normalize_url b.url == normalize_url a.url)).head?
          = some a) ∧
      ∀ a ∈ articles, ∃ b ∈ deduplicate_by_url articles,
        normalize_url b.url = normalize_url a.url) ∧
    deduplicate_by_url [utmArticle1, utmArticle2] = [utmArticle1] := by
  constructor
  · intro articles
    exact ⟨dedup_go_pairwise articles [], dedup_go_sublist articles [],
      fun a ha => dedup_go_first articles [] a ha,
      fun a ha => dedup_go_complete articles [] a ha rfl⟩
  · decide

/-- Witness for C7 at a concrete input: both scenario candidates normalize
to the same url, and the theorem's first-wins clause applied to the
scenario input returns the first candidate. -/
theorem C7_dedup_by_url_first_wins_witness :
    ([utmArticle1, utmArticle2].filter
      (fun b => normalize_url b.url == normalize_url utmArticle1.url)).head?
      = some utmArticle1 :=
  (C7_dedup_by_url_first_wins.1 [utmArticle1, utmArticle2]).2.2.1 utmArticle1
    (by rw [C7_dedup_by_url_first_wins.2]; exact List.mem_singleton.mpr rfl)

lemma dash_not_ws {d : Char} (h : isDashMH d = true) : isPyWs d = false := by
  have : (d = '-' ∨ d = Char.ofNat 8211) ∨ d = Char.ofNat 8212 := by
    simpa [isDashMH] using h
  rcases this with (rfl | rfl) | rfl <;> decide

lemma dropWhile_ws_append {w : LChar} (hw : w.all isPyWs = true) (x : LChar) :
    (w ++ x).dropWhile isPyWs = x.dropWhile isPyWs := by
  induction w with
  | nil => rfl
  | cons c t ih =>
    simp only [List.all_cons, Bool.and_eq_true] at hw
    simp only [List.cons_append, List.dropWhile_cons, hw.1, if_true]
    exact ih hw.2

lemma dropWhile_not_ws_head {c : Char} (hc : isPyWs c = false) (x : LChar) :
    (c :: x).dropWhile isPyWs = c :: x := by
  rw [List.dropWhile_cons, if_neg (by simp [hc])]

lemma matchMHAt_ws_append {w : LChar} (hw : w.all isPyWs = true) (x : LChar) :
    matchMHAt (w ++ x) = matchMHAt x := by
  rw [matchMHAt, matchMHAt, dropWhile_ws_append hw]

lemma startsW_self_append (q t : LChar) : startsW q (q ++ t) = true := by
  induction q with
  | nil => rfl
  | cons c rest ih => simpa [startsW] using ih

lemma cnt_append (a b : LChar) : cntNonWs (a ++ b) = cntNonWs a + cntNonWs b := by
  simp [cntNonWs, List.filter_append]

lemma cnt_all_ws {w : LChar} (hw : w.all isPyWs = true) : cntNonWs w = 0 := by
  simp only [cntNonWs, List.length_eq_zero, List.filter_eq_nil_iff]
  intro c hc
  have := (List.all_eq_true.mp hw) c hc
  simp [this]

lemma all_ws_of_cnt_zero {w : LChar} (hw : cntNonWs w = 0) : w.all isPyWs = true := by
  simp only [cntNonWs, List.length_eq_zero, List.filter_eq_nil_iff] at hw
  rw [List.all_eq_true]
  intro c hc
  have := hw c hc
  simpa using this

lemma cnt_dropWhile_ws (s : LChar) : cntNonWs (s.dropWhile isPyWs) = cntNonWs s := by
  induction s with
  | nil => rfl
  | cons c t ih =>
    rw [List.dropWhile_cons]
    by_cases hc : isPyWs c = true
    · rw [if_pos (by simp [hc])]
      rw [ih, cntNonWs, cntNonWs, List.filter_cons, if_neg (by simp [hc])]
    · rw [if_neg (by simp at hc ⊢; exact hc)]

lemma cnt_cons_not_ws {c : Char} (hc : isPyWs c = false) (t : LChar) :
    cntNonWs (c :: t) = cntNonWs t + 1 := by
  rw [cntNonWs, cntNonWs, List.filter_cons, if_pos (by simp [hc])]
  simp [Nat.add_comm]

lemma mhName_cnt : cntNonWs mhName = 11 := by decide

lemma mhName_length : mhName.length = 12 := by decide

lemma matchMHAt_cnt {s : LChar} (h : matchMHAt s = true) : cntNonWs s = 12 := by
  rw [matchMHAt] at h
  cases e : s.dropWhile isPyWs with
  | nil => rw [e] at h; exact Bool.noConfusion h
  | cons d s2 =>
    rw [e] at h
    simp only [Bool.and_eq_true] at h
    obtain ⟨hd, hsw, hws⟩ := h
    have h1 : cntNonWs s = cntNonWs (d :: s2) := by rw [← e, cnt_dropWhile_ws]
    have h2 : cntNonWs (d :: s2) = cntNonWs s2 + 1 := cnt_cons_not_ws (dash_not_ws hd) s2
    have h3 : cntNonWs s2 = cntNonWs (s2.dropWhile isPyWs) := (cnt_dropWhile_ws s2).symm
    have h4 : s2.dropWhile isPyWs
        = mhName ++ (s2.dropWhile isPyWs).drop mhName.length := startsW_eq_append hsw
    have h5 : cntNonWs (s2.dropWhile isPyWs)
        = cntNonWs mhName + cntNonWs ((s2.dropWhile isPyWs).drop mhName.length) := by
      conv_lhs => rw [h4]
      exact cnt_append _ _
    have h6 : cntNonWs ((s2.dropWhile isPyWs).drop mhName.length) = 0 := by
      apply cnt_all_ws
      rw [mhName_length]
      exact hws
    rw [h1, h2, h3, h5, h6, mhName_cnt]

lemma subMH_cons_match {c : Char} {rest : LChar} (h : matchMHAt (c :: rest) = true) :
    subMH (c :: rest) = [] := by
  simp [subMH, h]

lemma subMH_cons_nomatch {c : Char} {rest : LChar} (h : matchMHAt (c :: rest) = false) :
    subMH (c :: rest) = c :: subMH rest := by
  simp [subMH, h]

lemma rstripWs_of_all_ws {w : LChar} (hw : w.all isPyWs = true) : rstripWs w = [] := by
  induction w with
  | nil => rfl
  | cons c t ih =>
    simp only [List.all_cons, Bool.and_eq_true] at hw
    rw [rstripWs, ih hw.2, if_pos (by simp [hw.1])]

lemma all_ws_of_rstripWs_nil : ∀ {w : LChar}, rstripWs w = [] → w.all isPyWs = true := by
  intro w
  induction w with
  | nil => intro _; rfl
  | cons c t ih =>
    intro h
    rw [rstripWs] at h
    by_cases hcond : ((rstripWs t).isEmpty && isPyWs c) = true
    · simp only [Bool.and_eq_true, List.isEmpty_iff] at hcond
      simp only [List.all_cons, Bool.and_eq_true]
      exact ⟨hcond.2, ih hcond.1⟩
    · rw [if_neg hcond] at h
      exact List.noConfusion h

lemma rstripWs_cons_not_ws {c : Char} (hc : isPyWs c = false) (t : LChar) :
    rstripWs (c :: t) = c :: rstripWs t := by
  rw [rstripWs, if_neg (by simp [hc])]

lemma matchMHAt_canonical (w1 w2 w3 : LChar) (d : Char) (hw1 : w1.all isPyWs = true)
    (hw2 : w2.all isPyWs = true) (hw3 : w3.all isPyWs = true) (hd : isDashMH d = true) :
    matchMHAt (w1 ++ d :: (w2 ++ (mhName ++ w3))) = true := by
  have hM : (mhName ++ w3).dropWhile isPyWs = mhName ++ w3 := by
    rw [show mhName ++ w3 = 'M' :: ("iami Herald".data ++ w3) from rfl]
    exact dropWhile_not_ws_head (by decide) _
  have hdrop : (mhName ++ w3).drop 12 = w3 := by
    rw [show (12 : Nat) = mhName.length from rfl]
    exact List.drop_left mhName w3
  rw [matchMHAt, dropWhile_ws_append hw1, dropWhile_not_ws_head (dash_not_ws hd)]
  simp only [hd, dropWhile_ws_append hw2, hM, startsW_self_append, hdrop, hw3,
    Bool.and_self, Bool.and_true, Bool.true_and]

lemma cnt_tailMH (w1 w2 w3 : LChar) (d : Char) (hw1 : w1.all isPyWs = true)
    (hw2 : w2.all isPyWs = true) (hw3 : w3.all isPyWs = true) (hd : isDashMH d = true) :
    cntNonWs (w1 ++ d :: (w2 ++ (mhName ++ w3))) = 12 := by
  rw [cnt_append, cnt_cons_not_ws (dash_not_ws hd), cnt_append, cnt_append,
    cnt_all_ws hw1, cnt_all_ws hw2, cnt_all_ws hw3, mhName_cnt]

lemma subMH_canonical (w1 w2 w3 : LChar) (d : Char) (hw1 : w1.all isPyWs = true)
    (hw2 : w2.all isPyWs = true) (hw3 : w3.all isPyWs = true) (hd : isDashMH d = true) :
    ∀ (base : LChar), subMH (base ++ (w1 ++ d :: (w2 ++ (mhName ++ w3)))) = rstripWs base := by
  intro base
  induction base with
  | nil =>
    rw [List.nil_append]
    have hm := matchMHAt_canonical w1 w2 w3 d hw1 hw2 hw3 hd
    cases w1 with
    | nil =>
      rw [List.nil_append] at hm ⊢
      exact subMH_cons_match hm
    | cons wc w1' =>
      rw [List.cons_append] at hm ⊢
      exact subMH_cons_match hm
  | cons c base' ih =>
    rw [List.cons_append]
    by_cases hc : isPyWs c = true
    · have hmw : matchMHAt (c :: (base' ++ (w1 ++ d :: (w2 ++ (mhName ++ w3)))))
          = matchMHAt (base' ++ (w1 ++ d :: (w2 ++ (mhName ++ w3)))) := by
        have := matchMHAt_ws_append (w := [c]) (by simp [hc])
          (base' ++ (w1 ++ d :: (w2 ++ (mhName ++ w3))))
        simpa using this
      cases hm : matchMHAt (base' ++ (w1 ++ d :: (w2 ++ (mhName ++ w3)))) with
      | true =>
        rw [subMH_cons_match (by rw [hmw]; exact hm)]
        have hcnt := matchMHAt_cnt hm
        rw [cnt_append, cnt_tailMH w1 w2 w3 d hw1 hw2 hw3 hd] at hcnt
        have hbase : base'.all isPyWs = true := all_ws_of_cnt_zero (by omega)
        exact (rstripWs_of_all_ws (by simp [hc, hbase])).symm
      | false =>
        rw [subMH_cons_nomatch (by rw [hmw]; exact hm), ih]
        have hne : rstripWs base' ≠ [] := by
          intro hcontra
          have hbase : base'.all isPyWs = true := all_ws_of_rstripWs_nil hcontra
          rw [matchMHAt_ws_append hbase, matchMHAt_canonical w1 w2 w3 d hw1 hw2 hw3 hd] at hm
          exact Bool.noConfusion hm
        rw [rstripWs, if_neg (by simp [List.isEmpty_iff, hne])]
    · have hc' : isPyWs c = false := by simpa using hc
      have hm : matchMHAt (c :: (base' ++ (w1 ++ d :: (w2 ++ (mhName ++ w3))))) = false := by
        cases hm2 : matchMHAt (c :: (base' ++ (w1 ++ d :: (w2 ++ (mhName ++ w3))))) with
        | false => rfl
        | true =>
          exfalso
          have hcnt := matchMHAt_cnt hm2
          rw [cnt_cons_not_ws hc', cnt_append, cnt_tailMH w1 w2 w3 d hw1 hw2 hw3 hd] at hcnt
          omega
      rw [subMH_cons_nomatch hm, ih, rstripWs_cons_not_ws hc']

lemma lstrip_cons_ws {c : Char} (hc : isPyWs c = true) (t : LChar) :
    lstripWs (c :: t) = lstripWs t := by
  rw [lstripWs, lstripWs, List.dropWhile_cons, if_pos (by simp [hc])]

lemma lstrip_cons_not_ws {c : Char} (hc : isPyWs c = false) (t : LChar) :
    lstripWs (c :: t) = c :: t := by
  rw [lstripWs, List.dropWhile_cons, if_neg (by simp [hc])]

lemma lstrip_of_all_ws {w : LChar} (hw : w.all isPyWs = true) : lstripWs w = [] := by
  induction w with
  | nil => rfl
  | cons c t ih =>
    simp only [List.all_cons, Bool.and_eq_true] at hw
    rw [lstrip_cons_ws hw.1]
    exact ih hw.2

lemma rstripWs_idem (b : LChar) : rstripWs (rstripWs b) = rstripWs b := by
  induction b with
  | nil => rfl
  | cons c t ih =>
    cases hcond : ((rstripWs t).isEmpty && isPyWs c) with
    | true =>
      rw [show rstripWs (c :: t) = [] from by rw [rstripWs, if_pos hcond]]
      rfl
    | false =>
      rw [show rstripWs (c :: t) = c :: rstripWs t from by
        rw [rstripWs, if_neg (by simp [hcond])]]
      rw [rstripWs, ih, if_neg (by simp [hcond])]

lemma lstrip_rstrip_comm (b : LChar) : lstripWs (rstripWs b) = rstripWs (lstripWs b) := by
  induction b with
  | nil => rfl
  | cons c t ih =>
    by_cases hc : isPyWs c = true
    · rw [lstrip_cons_ws hc]
      by_cases hnil : rstripWs t = []
      · have hall : t.all isPyWs = true := all_ws_of_rstripWs_nil hnil
        rw [show rstripWs (c :: t) = [] from by
          rw [rstripWs, if_pos (by simp [List.isEmpty_iff, hnil, hc])]]
        rw [lstrip_of_all_ws hall]
        rfl
      · rw [show rstripWs (c :: t) = c :: rstripWs t from by
          rw [rstripWs, if_neg (by simp [List.isEmpty_iff, hnil])]]
        rw [lstrip_cons_ws hc, ih]
    · have hc' : isPyWs c = false := by simpa using hc
      simp only [rstripWs_cons_not_ws hc', lstrip_cons_not_ws hc']

lemma pyStrip_rstripWs (b : LChar) : pyStrip (rstripWs b) = pyStrip b := by
  rw [pyStrip, pyStrip, lstrip_rstrip_comm, rstripWs_idem]

/-- C9: the stored title is the feed headline with a trailing
dash-plus-publisher-name suffix stripped and surrounding whitespace
trimmed: whenever the feed title has the form
`base ++ ws ++ dash ++ ws ++ "Miami Herald" ++ ws` (dash one of `-`, `–`,
`—`, `ws` whitespace-only), the stored title is `base.strip()`; and the
scenario entry titled `Storm Hits Florida - Miami Herald` with source
`Miami Herald` yields stored title `Storm Hits Florida` and survives the
source filter. -/
theorem C9_title_suffix_stripped :
    (∀ (base w1 w2 w3 : LChar) (d : Char), w1.all isPyWs = true → w2.all isPyWs = true →
      w3.all isPyWs = true → isDashMH d = true →
      ∀ (e : FeedEntry), e.title = base ++ (w1 ++ d :: (w2 ++ (mhName ++ w3))) →
        entryTitle e = pyStrip base) ∧
    fetch_gnews_rss_entries [stormEntry] = [mkArticle stormEntry] ∧
    (mkArticle stormEntry).title = "Storm Hits Florida".data := by
  refine ⟨?_, by decide, by decide⟩
  intro base w1 w2 w3 d hw1 hw2 hw3 hd e he
  rw [entryTitle, he, subMH_canonical w1 w2 w3 d hw1 hw2 hw3 hd base, pyStrip_rstripWs]

/-- Witness for C9 at a concrete input: the general clause applied to the
scenario title decomposed as
`"Storm Hits Florida" ++ " " ++ "-" ++ " " ++ "Miami Herald"`. -/
theorem C9_title_suffix_stripped_witness :
    entryTitle stormEntry = pyStrip ("Storm Hits Florida".data) :=
  C9_title_suffix_stripped.1 ("Storm Hits Florida".data) [' '] [' '] [] '-'
    (by decide) (by decide) (by decide) (by decide) stormEntry (by decide)

/- ===================== Feed Query Client source filter (C8) ===================== -/

/-- C8: the per-entry loop keeps exactly the entries whose source string
is empty (no attributed source) or contains the publisher display name
`Miami Herald` (the code's matching test is substring containment,
`"Miami Herald" not in source`); every entry with a nonempty source not
containing the name is discarded, and every entry lacking a source name
is kept. -/
theorem C8_source_filter (entries : List FeedEntry) :
    fetch_gnews_rss_entries entries =
      (entries.filter (fun e =>
        (entrySource e).isEmpty || containsSub mhName (entrySource e))).map mkArticle ∧
    ∀ e ∈ entries, entrySource e = [] → mkArticle e ∈ fetch_gnews_rss_entries entries := by
  constructor
  · induction entries with
    | nil => rfl
    | cons e rest ih =>
      rw [fetch_gnews_rss_entries, List.filter_cons]
      cases hkeep : ((entrySource e).isEmpty || containsSub mhName (entrySource e)) with
      | true =>
        have hskip : (!(entrySource e).isEmpty && !containsSub mhName (entrySource e))
            = false := by
          rw [← Bool.not_or, hkeep]
          rfl
        rw [hskip]
        simp only [Bool.false_eq_true, if_false, if_true, List.map_cons]
        rw [ih]
      | false =>
        have hskip : (!(entrySource e).isEmpty && !containsSub mhName (entrySource e))
            = true := by
          rw [← Bool.not_or, hkeep]
          rfl
        rw [hskip]
        simp only [Bool.false_eq_true, if_true, if_false]
        exact ih
  · intro e he hsrc
    induction entries with
    | nil => exact absurd he (List.not_mem_nil e)
    | cons x rest ih =>
      rw [fetch_gnews_rss_entries]
      rcases List.mem_cons.mp he with rfl | hmem
      · rw [if_neg (by simp [hsrc])]
        exact List.mem_cons_self _ _
      · by_cases hx : (!(entrySource x).isEmpty && !containsSub mhName (entrySource x)) = true
        · rw [if_pos hx]
          exact ih hmem
        · rw [if_neg hx]
          exact List.mem_cons_of_mem _ (ih hmem)

/-- Witness for C8 at a concrete input: the entry with a foreign source is
discarded and the sourceless entry is kept. -/
theorem C8_source_filter_witness :
    fetch_gnews_rss_entries [eNoSource, eOtherSource] = [mkArticle eNoSource] ∧
    mkArticle eNoSource ∈ fetch_gnews_rss_entries [eNoSource, eOtherSource] := by
  have h := C8_source_filter [eNoSource, eOtherSource]
  exact ⟨by rw [h.1]; decide, h.2 eNoSource (by decide) (by decide)⟩

/-- C2 counterexample: when the decode fails and the original link lacks
the domain marker, the Resolution Stage stores the original link verbatim,
and that stored url is not a fixed point of the URL Normalizer — so it is
not true that every candidate's url is normalized after `resolve_urls`. -/
theorem C2_counterexample :
    resolve_urls decoderRaises [c2Article]
      = [{ c2Article with url := "http://example.com/a?b".data }] ∧
    normalize_url "http://example.com/a?b".data ≠ "http://example.com/a?b".data :=
  ⟨by decide, by decide⟩

/-- C2 (amended): after the Resolution Stage, every candidate whose
resolved URL contains the domain marker carries
`normalize_url` of that resolved URL — a fixed point of the URL
Normalizer; every candidate that fell back carries the original redirect
link verbatim, which need not be normalized. -/
theorem C2_resolved_urls_normalized (decoder : LChar → DecodeOutcome)
    (articles : List Article) (a : Article) (ha : a ∈ resolve_urls decoder articles) :
    ∃ b ∈ articles, a = resolveStep decoder b ∧
      ((containsSub mhDomain (resolve_google_news_url decoder b.google_url) = true ∧
        a.url = normalize_url (resolve_google_news_url decoder b.google_url) ∧
        normalize_url a.url = a.url) ∨
       (containsSub mhDomain (resolve_google_news_url decoder b.google_url) = false ∧
        a.url = b.google_url)) := by
  obtain ⟨b, hb, rfl⟩ := List.mem_map.mp ha
  refine ⟨b, hb, rfl, ?_⟩
  cases hmark : containsSub mhDomain (resolve_google_news_url decoder b.google_url) with
  | true =>
    left
    have hurl : (resolveStep decoder b).url
        = normalize_url (resolve_google_news_url decoder b.google_url) := by
      rw [resolveStep, if_pos hmark]
    refine ⟨rfl, hurl, ?_⟩
    rw [hurl]
    obtain ⟨h1, h2, h3, h4, h5⟩ :=
      normalize_url_props (resolve_google_news_url decoder b.google_url)
    exact normalize_url_fixed h1 h2 h3 h4 h5
  | false =>
    right
    refine ⟨rfl, ?_⟩
    rw [resolveStep, if_neg (by simp [hmark])]

/-- Witness for the amended C2 at a concrete input: the adopted decoded
URL is stored in normalized, normalize_url-fixed form. -/
theorem C2_resolved_urls_normalized_witness :
    ∃ b ∈ [gArticle], resolveStep decoderToMH gArticle = resolveStep decoderToMH b ∧
      ((containsSub mhDomain (resolve_google_news_url decoderToMH b.google_url) = true ∧
        (resolveStep decoderToMH gArticle).url
          = normalize_url (resolve_google_news_url decoderToMH b.google_url) ∧
        normalize_url (resolveStep decoderToMH gArticle).url
          = (resolveStep decoderToMH gArticle).url) ∨
       (containsSub mhDomain (resolve_google_news_url decoderToMH b.google_url) = false ∧
        (resolveStep decoderToMH gArticle).url = b.google_url)) :=
  C2_resolved_urls_normalized decoderToMH [gArticle] (resolveStep decoderToMH gArticle)
    (by decide)

/-- C5 counterexample: on a decode failure (the decoder raises) the
resolver does return the original link, but the Resolution Stage then
stores the NORMALIZED original link — not the original redirect link
verbatim — because the original link happens to contain
`miamiherald.com`.  This refutes the claim that in every non-adoption
case the candidate's url equals the original link verbatim. -/
theorem C5_counterexample :
    resolve_google_news_url decoderRaises c5Article.google_url = c5Article.google_url ∧
    resolve_urls decoderRaises [c5Article]
      = [{ c5Article with url := "https://www.miamiherald.com/a".data }] ∧
    "https://www.miamiherald.com/a".data ≠ c5Article.google_url :=
  ⟨by decide, by decide, by decide⟩

/-- C5 (amended): redirect resolution is total (modelled without any
exceptional result): `resolve_google_news_url` returns the original link
on every failure path (exception, falsy status, empty decoded URL) and
the decoded URL exactly on success; after the Resolution Stage a resolved
URL is adopted — in normalized form — exactly when it contains the
domain marker, and otherwise the candidate keeps the original redirect
link verbatim.  In particular, after a decode failure the candidate's url
is the original link verbatim unless the original link itself contains the
marker, in which case it is the normalized original link. -/
theorem C5_resolver_fallback (decoder : LChar → DecodeOutcome) (a : Article) :
    (decoder a.google_url = DecodeOutcome.raises →
      resolve_google_news_url decoder a.google_url = a.google_url) ∧
    (∀ st du, decoder a.google_url = DecodeOutcome.returns st du →
      ((st && !du.isEmpty) = false →
        resolve_google_news_url decoder a.google_url = a.google_url) ∧
      ((st && !du.isEmpty) = true →
        resolve_google_news_url decoder a.google_url = du)) ∧
    (containsSub mhDomain (resolve_google_news_url decoder a.google_url) = true →
      (resolveStep decoder a).url
        = normalize_url (resolve_google_news_url decoder a.google_url)) ∧
    (containsSub mhDomain (resolve_google_news_url decoder a.google_url) = false →
      (resolveStep decoder a).url = a.google_url) := by
  refine ⟨?_, ?_, ?_, ?_⟩
  · intro h
    rw [resolve_google_news_url, h]
  · intro st du h
    constructor
    · intro hf
      simp only [resolve_google_news_url, h, hf, Bool.false_eq_true, if_false]
    · intro ht
      simp only [resolve_google_news_url, h, ht, if_true]
  · intro hmark
    rw [resolveStep, if_pos hmark]
  · intro hmark
    rw [resolveStep, if_neg (by simp [hmark])]

/-- Witness for the amended C5 at a concrete input: the raising decoder
falls back to the original link, and since that link contains the domain
marker the stored url is its normalized form. -/
theorem C5_resolver_fallback_witness :
    resolve_google_news_url decoderRaises c5Article.google_url = c5Article.google_url ∧
    (resolveStep decoderRaises c5Article).url
      = normalize_url (resolve_google_news_url decoderRaises c5Article.google_url) :=
  ⟨(C5_resolver_fallback decoderRaises c5Article).1 rfl,
   (C5_resolver_fallback decoderRaises c5Article).2.2.1 (by decide)⟩

lemma containsKeyB_iff (m : List (LChar × Article)) (k : LChar) :
    containsKeyB m k = true ↔ k ∈ m.map Prod.fst := by
  rw [containsKeyB, List.any_eq_true]
  constructor
  · rintro ⟨kv, hkv, he⟩
    exact List.mem_map.mpr ⟨kv, hkv, (by simpa using he)⟩
  · rintro h
    obtain ⟨kv, hkv, he⟩ := List.mem_map.mp h
    exact ⟨kv, hkv, by simp [he]⟩

lemma mergeArticles_cond (m : List (LChar × Article)) (a : Article) (rest : List Article) :
    mergeArticles m (a :: rest)
      = if (!(titleKey a).isEmpty && !(m.any (fun kv => kv.1 == titleKey a))) = true
        then mergeArticles (m ++ [(titleKey a, a)]) rest
        else mergeArticles m rest := by
  rw [mergeArticles]

lemma mergeArticles_append (xs ys : List Article) : ∀ (m : List (LChar × Article)),
    mergeArticles m (xs ++ ys) = mergeArticles (mergeArticles m xs) ys := by
  induction xs with
  | nil => intro m; rfl
  | cons a rest ih =>
    intro m
    rw [List.cons_append, mergeArticles_cond, mergeArticles_cond]
    by_cases hc : (!(titleKey a).isEmpty && !(m.any (fun kv => kv.1 == titleKey a))) = true
    · rw [if_pos hc, if_pos hc, ih]
    · rw [if_neg hc, if_neg hc, ih]

lemma collect_eq_merge_join (fetch : LChar → List Article) :
    collect_all_articles fetch
      = (mergeArticles [] ((RSS_QUERIES.map fetch).flatten)).map Prod.snd := by
  rw [collect_all_articles]
  congr 1
  have hgen : ∀ (qs : List LChar) (m : List (LChar × Article)),
      qs.foldl (fun m q => mergeArticles m (fetch q)) m
        = mergeArticles m ((qs.map fetch).flatten) := by
    intro qs
    induction qs with
    | nil => intro m; rfl
    | cons q qs ih =>
      intro m
      rw [List.foldl_cons, ih, List.map_cons, List.flatten_cons, mergeArticles_append]
  exact hgen RSS_QUERIES []

lemma mergeArticles_first : ∀ (stream : List Article) (m : List (LChar × Article)),
    ∀ kv ∈ mergeArticles m stream, kv ∈ m ∨
      (kv.1 ≠ [] ∧ containsKeyB m kv.1 = false ∧ kv.1 = titleKey kv.2 ∧
        (stream.filter (fun b => titleKey b == kv.1)).head? = some kv.2) := by
  intro stream
  induction stream with
  | nil => intro m kv hkv; exact Or.inl hkv
  | cons a rest ih =>
    intro m kv hkv
    rw [mergeArticles_cond] at hkv
    by_cases hc : (!(titleKey a).isEmpty && !(m.any (fun kv => kv.1 == titleKey a))) = true
    · rw [if_pos hc] at hkv
      rw [Bool.and_eq_true, Bool.not_eq_true', Bool.not_eq_true'] at hc
      obtain ⟨hkne, hnotin⟩ := hc
      have hkne' : titleKey a ≠ [] := by
        intro hcontra
        simp [hcontra] at hkne
      have hnotin' : containsKeyB m (titleKey a) = false := hnotin
      rcases ih (m ++ [(titleKey a, a)]) kv hkv with hin | ⟨h1, h2, h3, h4⟩
      · rcases List.mem_append.mp hin with hin | hin
        · exact Or.inl hin
        · have hkv_eq : kv = (titleKey a, a) := by simpa using hin
          subst hkv_eq
          refine Or.inr ⟨hkne', hnotin', rfl, ?_⟩
          rw [List.filter_cons, if_pos (by simp)]
          rfl
      · have hka : kv.1 ≠ titleKey a := by
          intro hcontra
          rw [← Bool.not_eq_true, containsKeyB, List.any_eq_true] at h2
          exact h2 ⟨(titleKey a, a), List.mem_append.mpr (Or.inr (by simp)), by simp [hcontra]⟩
        refine Or.inr ⟨h1, ?_, h3, ?_⟩
        · rw [← Bool.not_eq_true, containsKeyB, List.any_eq_true] at h2 ⊢
          rintro ⟨kv', hkv', he⟩
          exact h2 ⟨kv', List.mem_append.mpr (Or.inl hkv'), he⟩
        · rw [List.filter_cons, if_neg (by simp; intro hcontra; exact hka hcontra.symm)]
          exact h4
    · rw [if_neg hc] at hkv
      rcases ih m kv hkv with hin | ⟨h1, h2, h3, h4⟩
      · exact Or.inl hin
      · rw [Bool.and_eq_true, not_and_or, Bool.not_eq_true, Bool.not_eq_true] at hc
        simp only [Bool.not_eq_false'] at hc
        have hka : titleKey a ≠ kv.1 := by
          intro hcontra
          rcases hc with hc1 | hc1
          · apply h1
            rw [← hcontra]
            simpa using hc1
          · rw [← Bool.not_eq_true, containsKeyB] at h2
            rw [hcontra] at hc1
            exact h2 hc1
        refine Or.inr ⟨h1, h2, h3, ?_⟩
        rw [List.filter_cons, if_neg (by simp [hka])]
        exact h4

lemma mergeArticles_nodup : ∀ (stream : List Article) (m : List (LChar × Article)),
    (m.map Prod.fst).Nodup → ((mergeArticles m stream).map Prod.fst).Nodup := by
  intro stream
  induction stream with
  | nil => intro m hm; exact hm
  | cons a rest ih =>
    intro m hm
    rw [mergeArticles_cond]
    by_cases hc : (!(titleKey a).isEmpty && !(m.any (fun kv => kv.1 == titleKey a))) = true
    · rw [if_pos hc]
      apply ih
      simp only [List.map_append, List.map_cons, List.map_nil]
      refine List.Nodup.append hm (by simp) ?_
      rw [List.disjoint_singleton]
      rw [Bool.and_eq_true, Bool.not_eq_true', Bool.not_eq_true'] at hc
      intro hmem
      have hck := (containsKeyB_iff m (titleKey a)).mpr hmem
      rw [containsKeyB, hc.2] at hck
      exact Bool.noConfusion hck
    · rw [if_neg hc]
      exact ih m hm

lemma mergeArticles_mono (k : LChar) : ∀ (stream : List Article)
    (m : List (LChar × Article)), containsKeyB m k = true →
    containsKeyB (mergeArticles m stream) k = true := by
  intro stream
  induction stream with
  | nil => intro m hm; exact hm
  | cons a rest ih =>
    intro m hm
    rw [mergeArticles_cond]
    by_cases hc : (!(titleKey a).isEmpty && !(m.any (fun kv => kv.1 == titleKey a))) = true
    · rw [if_pos hc]
      apply ih
      rw [containsKeyB, List.any_eq_true] at hm ⊢
      obtain ⟨kv, hkv, he⟩ := hm
      exact ⟨kv, List.mem_append.mpr (Or.inl hkv), he⟩
    · rw [if_neg hc]
      exact ih m hm

lemma mergeArticles_key_present : ∀ (stream : List Article) (m : List (LChar × Article))
    (a : Article), a ∈ stream → titleKey a ≠ [] →
    containsKeyB (mergeArticles m stream) (titleKey a) = true := by
  intro stream
  induction stream with
  | nil => intro m a ha _; exact absurd ha (List.not_mem_nil a)
  | cons x rest ih =>
    intro m a ha hne
    rw [mergeArticles_cond]
    rcases List.mem_cons.mp ha with rfl | hmem
    · by_cases hc : (!(titleKey a).isEmpty && !(m.any (fun kv => kv.1 == titleKey a))) = true
      · rw [if_pos hc]
        apply mergeArticles_mono
        rw [containsKeyB, List.any_eq_true]
        exact ⟨(titleKey a, a), List.mem_append.mpr (Or.inr (by simp)), by simp⟩
      · rw [if_neg hc]
        rw [Bool.and_eq_true, not_and_or, Bool.not_eq_true, Bool.not_eq_true] at hc
        simp only [Bool.not_eq_false'] at hc
        rcases hc with hc | hc
        · exact absurd (by simpa using hc) hne
        · exact mergeArticles_mono _ rest m hc
    · by_cases hc : (!(titleKey x).isEmpty && !(m.any (fun kv => kv.1 == titleKey x))) = true
      · rw [if_pos hc]
        exact ih _ a hmem hne
      · rw [if_neg hc]
        exact ih m a hmem hne

/-- C6: the Discovery Orchestrator never produces two candidates whose
case-folded whitespace-trimmed titles agree; every produced candidate has
a nonempty key; for each key the candidate kept is the first occurrence
in the concatenated query-result stream (later duplicates are dropped
whole, no field merging); and every nonempty key occurring in the stream
is represented in the output. -/
theorem C6_discovery_unique_titles (fetch : LChar → List Article) :
    (collect_all_articles fetch).Pairwise (fun a b => titleKey a ≠ titleKey b) ∧
    (∀ a ∈ collect_all_articles fetch, titleKey a ≠ []) ∧
    (∀ a ∈ collect_all_articles fetch,
      (((RSS_QUERIES.map fetch).flatten).filter
        (fun b => titleKey b == titleKey a)).head? = some a) ∧
    (∀ a ∈ (RSS_QUERIES.map fetch).flatten, titleKey a ≠ [] →
      ∃ b ∈ collect_all_articles fetch, titleKey b = titleKey a) := by
  rw [collect_eq_merge_join]
  have hfirst := mergeArticles_first ((RSS_QUERIES.map fetch).flatten) []
  refine ⟨?_, ?_, ?_, ?_⟩
  · have hnodup : ((mergeArticles [] ((RSS_QUERIES.map fetch).flatten)).map Prod.fst).Nodup :=
      mergeArticles_nodup _ [] (by simp)
    have hpw : (mergeArticles [] ((RSS_QUERIES.map fetch).flatten)).Pairwise
        (fun kv kv' => kv.1 ≠ kv'.1) := (List.pairwise_map).mp hnodup
    have hpw2 : (mergeArticles [] ((RSS_QUERIES.map fetch).flatten)).Pairwise
        (fun kv kv' => titleKey kv.2 ≠ titleKey kv'.2) := by
      refine List.Pairwise.imp_of_mem ?_ hpw
      intro kv kv' hkv hkv' hne
      rcases hfirst kv hkv with h | ⟨_, _, h3, _⟩
      · exact absurd h (List.not_mem_nil kv)
      rcases hfirst kv' hkv' with h' | ⟨_, _, h3', _⟩
      · exact absurd h' (List.not_mem_nil kv')
      rw [← h3, ← h3']
      exact hne
    exact (List.pairwise_map).mpr hpw2
  · intro a ha
    obtain ⟨kv, hkv, rfl⟩ := List.mem_map.mp ha
    rcases hfirst kv hkv with h | ⟨h1, _, h3, _⟩
    · exact absurd h (List.not_mem_nil kv)
    · rw [← h3]
      exact h1
  · intro a ha
    obtain ⟨kv, hkv, rfl⟩ := List.mem_map.mp ha
    rcases hfirst kv hkv with h | ⟨_, _, h3, h4⟩
    · exact absurd h (List.not_mem_nil kv)
    · rw [← h3]
      exact h4
  · intro a ha hne
    have hpres := mergeArticles_key_present ((RSS_QUERIES.map fetch).flatten) [] a ha hne
    rw [containsKeyB, List.any_eq_true] at hpres
    obtain ⟨kv, hkv, he⟩ := hpres
    refine ⟨kv.2, List.mem_map.mpr ⟨kv, hkv, rfl⟩, ?_⟩
    rcases hfirst kv hkv with h | ⟨_, _, h3, _⟩
    · exact absurd h (List.not_mem_nil kv)
    · rw [← h3]
      simpa using he

set_option maxRecDepth 100000 in
/-- Witness for C6 at a concrete input: the first occurrence wins for the
shared key, and its key is nonempty. -/
theorem C6_discovery_unique_titles_witness :
    (((RSS_QUERIES.map fetchBudget).flatten).filter
      (fun b => titleKey b == titleKey budget1)).head? = some budget1 ∧
    titleKey budget1 ≠ [] :=
  ⟨(C6_discovery_unique_titles fetchBudget).2.2.1 budget1 (by decide),
   (C6_discovery_unique_titles fetchBudget).2.1 budget1 (by decide)⟩

/- ===================== Filter Stage properties (C3) ===================== -/

lemma dtLe_iff (a b : PyDateTime) : dtLe a b = true ↔
    (a.year < b.year ∨ (a.year = b.year ∧ (a.month < b.month ∨ (a.month = b.month ∧
    (a.day < b.day ∨ (a.day = b.day ∧ (a.hour < b.hour ∨ (a.hour = b.hour ∧
    (a.minute < b.minute ∨ (a.minute = b.minute ∧ a.second ≤ b.second)))))))))) := by
  simp [dtLe]

lemma dtLe_refl (a : PyDateTime) : dtLe a a = true := by
  rw [dtLe_iff]
  omega

lemma dtLe_total (a b : PyDateTime) : dtLe a b = true ∨ dtLe b a = true := by
  rw [dtLe_iff, dtLe_iff]
  omega

lemma dtLe_trans {a b c : PyDateTime} (h1 : dtLe a b = true) (h2 : dtLe b c = true) :
    dtLe a c = true := by
  rw [dtLe_iff] at h1 h2 ⊢
  omega

lemma dtLe_antisymm {a b : PyDateTime} (h1 : dtLe a b = true) (h2 : dtLe b a = true) :
    a = b := by
  cases a
  cases b
  rw [dtLe_iff] at h1 h2
  simp only [PyDateTime.mk.injEq]
  simp only at h1 h2
  omega

/-- C3: the Filter Stage keeps a candidate iff its publish date parses to
`None` or to an instant at or after the cutoff; it is the order-preserving
`filter` of the input (a sublist); every removed candidate had a parsed
date strictly before the cutoff. -/
theorem C3_filter_keeps_recent (tz : List LChar) (cutoff : PyDateTime)
    (articles : List Article) :
    filter_by_date tz cutoff articles = articles.filter (keepByDate tz cutoff) ∧
    List.Sublist (filter_by_date tz cutoff articles) articles ∧
    (∀ a ∈ filter_by_date tz cutoff articles,
      parse_date tz a.publish_date = none ∨
      ∃ dt, parse_date tz a.publish_date = some dt ∧ dtLe cutoff dt = true) ∧
    (∀ a ∈ articles, a ∉ filter_by_date tz cutoff articles →
      ∃ dt, parse_date tz a.publish_date = some dt ∧
        dtLe cutoff dt = false ∧ dtLe dt cutoff = true) := by
  have hfe : filter_by_date tz cutoff articles = articles.filter (keepByDate tz cutoff) := by
    induction articles with
    | nil => rfl
    | cons a rest ih =>
      rw [List.filter_cons]
      cases hp : parse_date tz a.publish_date with
      | none =>
        have hk : keepByDate tz cutoff a = true := by simp [keepByDate, hp]
        simp only [filter_by_date, hp, hk, if_true]
        rw [ih]
      | some dt =>
        have hk : keepByDate tz cutoff a = dtLe cutoff dt := by simp [keepByDate, hp]
        simp only [filter_by_date, hp, hk]
        cases hle : dtLe cutoff dt with
        | true => simp only [if_true]; rw [ih]
        | false => simp only [Bool.false_eq_true, if_false]; rw [ih]
  refine ⟨hfe, by rw [hfe]; exact List.filter_sublist _, ?_, ?_⟩
  · intro a ha
    rw [hfe] at ha
    have hk := (List.mem_filter.mp ha).2
    cases hp : parse_date tz a.publish_date with
    | none => exact Or.inl rfl
    | some dt =>
      refine Or.inr ⟨dt, rfl, ?_⟩
      simp only [keepByDate, hp] at hk
      exact hk
  · intro a ha hnot
    have hk : keepByDate tz cutoff a = false := by
      cases he : keepByDate tz cutoff a with
      | false => rfl
      | true => exact absurd (hfe ▸ List.mem_filter.mpr ⟨ha, he⟩) hnot
    cases hp : parse_date tz a.publish_date with
    | none =>
      simp only [keepByDate, hp] at hk
      exact Bool.noConfusion hk
    | some dt =>
      simp only [keepByDate, hp] at hk
      refine ⟨dt, rfl, hk, ?_⟩
      rcases dtLe_total cutoff dt with h | h
      · rw [h] at hk; exact Bool.noConfusion hk
      · exact h

/-- Witness for C3 at a concrete input: the recent and unknown-date
candidates are kept in order, and the removed old candidate parses to a
date strictly before the cutoff. -/
theorem C3_filter_keeps_recent_witness :
    filter_by_date tzUtc cutoffSep [artOld, artNew, artUnk] = [artNew, artUnk] ∧
    (∃ dt, parse_date tzUtc artOld.publish_date = some dt ∧
      dtLe cutoffSep dt = false ∧ dtLe dt cutoffSep = true) := by
  refine ⟨by decide, ?_⟩
  exact (C3_filter_keeps_recent tzUtc cutoffSep [artOld, artNew, artUnk]).2.2.2 artOld
    (by decide) (by decide)

/- ===================== Exporter sorting (C4, C10) ===================== -/

lemma mem_ordInsertDesc (key : Article → PyDateTime) (x : Article) :
    ∀ (l : List Article) (b : Article), b ∈ ordInsertDesc key x l ↔ b = x ∨ b ∈ l := by
  intro l
  induction l with
  | nil => intro b; simp [ordInsertDesc]
  | cons y ys ih =>
    intro b
    rw [ordInsertDesc]
    by_cases hc : dtLe (key y) (key x) = true
    · rw [if_pos hc]
      simp [List.mem_cons]
    · rw [if_neg hc]
      simp only [List.mem_cons, ih]
      tauto

lemma pairwise_ordInsertDesc (key : Article → PyDateTime) (x : Article) :
    ∀ (l : List Article), l.Pairwise (fun a b => dtLe (key b) (key a) = true) →
    (ordInsertDesc key x l).Pairwise (fun a b => dtLe (key b) (key a) = true) := by
  intro l
  induction l with
  | nil => intro _; simp [ordInsertDesc]
  | cons y ys ih =>
    intro h
    rw [List.pairwise_cons] at h
    obtain ⟨hy, hys⟩ := h
    rw [ordInsertDesc]
    by_cases hc : dtLe (key y) (key x) = true
    · rw [if_pos hc]
      refine List.Pairwise.cons ?_ (List.Pairwise.cons hy hys)
      intro b hb
      rcases List.mem_cons.mp hb with rfl | hb
      · exact hc
      · exact dtLe_trans (hy b hb) hc
    · rw [if_neg hc]
      refine List.Pairwise.cons ?_ (ih hys)
      intro b hb
      rcases (mem_ordInsertDesc key x ys b).mp hb with rfl | hb
      · rcases dtLe_total (key y) (key b) with h | h
        · exact absurd h hc
        · exact h
      · exact hy b hb

lemma filter_ordInsertDesc (key : Article → PyDateTime) (p : Article → Bool)
    (hp : ∀ a b, p a = true → p b = true → key a = key b) (x : Article) :
    ∀ (l : List Article), (ordInsertDesc key x l).filter p
      = if p x then x :: l.filter p else l.filter p := by
  intro l
  induction l with
  | nil =>
    rw [ordInsertDesc, List.filter_cons]
  | cons y ys ih =>
    rw [ordInsertDesc]
    by_cases hc : dtLe (key y) (key x) = true
    · rw [if_pos hc, List.filter_cons]
    · rw [if_neg hc, List.filter_cons, ih]
      cases px : p x with
      | true =>
        have hpy : p y = false := by
          cases py : p y with
          | false => rfl
          | true =>
            exfalso
            have hkk := hp y x py px
            rw [hkk] at hc
            exact hc (dtLe_refl (key x))
        simp only [px, hpy, if_true, Bool.false_eq_true, if_false, List.filter_cons]
      | false =>
        simp only [px, Bool.false_eq_true, if_false, List.filter_cons]

lemma perm_ordInsertDesc (key : Article → PyDateTime) (x : Article) :
    ∀ (l : List Article), (ordInsertDesc key x l).Perm (x :: l) := by
  intro l
  induction l with
  | nil => exact List.Perm.refl _
  | cons y ys ih =>
    rw [ordInsertDesc]
    by_cases hc : dtLe (key y) (key x) = true
    · rw [if_pos hc]
    · rw [if_neg hc]
      exact (ih.cons y).trans (List.Perm.swap x y ys)

lemma sortByKeyDesc_pairwise (key : Article → PyDateTime) : ∀ (l : List Article),
    (sortByKeyDesc key l).Pairwise (fun a b => dtLe (key b) (key a) = true) := by
  intro l
  induction l with
  | nil => simp [sortByKeyDesc]
  | cons x xs ih =>
    rw [sortByKeyDesc]
    exact pairwise_ordInsertDesc key x _ ih

lemma filter_sortByKeyDesc (key : Article → PyDateTime) (p : Article → Bool)
    (hp : ∀ a b, p a = true → p b = true → key a = key b) : ∀ (l : List Article),
    (sortByKeyDesc key l).filter p = l.filter p := by
  intro l
  induction l with
  | nil => rfl
  | cons x xs ih =>
    rw [sortByKeyDesc, filter_ordInsertDesc key p hp x, ih, List.filter_cons]

lemma perm_sortByKeyDesc (key : Article → PyDateTime) : ∀ (l : List Article),
    (sortByKeyDesc key l).Perm l := by
  intro l
  induction l with
  | nil => exact List.Perm.refl _
  | cons x xs ih =>
    rw [sortByKeyDesc]
    exact (perm_ordInsertDesc key x _).trans (ih.cons x)

/-- C10: the Exporter's sort is stable — for every parse result class
(including the unknown `none` class) the rows of that class appear in the
output in exactly their input order — and the output is a permutation of
the input, so the exported row order is determined by the input order and
the parsed dates. -/
theorem C10_export_sort_stable (tz : List LChar) (articles : List Article) :
    (∀ (po : Option PyDateTime),
      (sorted_articles tz articles).filter
        (fun a => parse_date tz a.publish_date == po)
        = articles.filter (fun a => parse_date tz a.publish_date == po)) ∧
    (sorted_articles tz articles).Perm articles := by
  constructor
  · intro po
    apply filter_sortByKeyDesc
    intro a b hpa hpb
    simp only [beq_iff_eq] at hpa hpb
    rw [sortKey, sortKey, hpa, hpb]
  · exact perm_sortByKeyDesc _ _

lemma strptimeAttempt_valid {p : LChar → Option (PyDateTime × LChar)} {s : LChar}
    {dt : PyDateTime} (h : strptimeAttempt p s = some dt) : validDT dt = true := by
  rw [strptimeAttempt] at h
  cases hp : p s with
  | none => rw [hp] at h; exact Option.noConfusion h
  | some v =>
    obtain ⟨dtv, rest⟩ := v
    rw [hp] at h
    dsimp only at h
    by_cases hc : (rest.isEmpty && validDT dtv) = true
    · rw [if_pos hc] at h
      injection h with hd
      subst hd
      exact ((Bool.and_eq_true _ _).mp hc).2
    · rw [if_neg hc] at h
      exact Option.noConfusion h

lemma fallbackIso_valid {s : LChar} {dt : PyDateTime} (h : fallbackIso s = some dt) :
    validDT dt = true := by
  rw [fallbackIso] at h
  simp only [Option.bind_eq_some] at h
  obtain ⟨yy, _, r1, _, mo, _, r2, _, dd, _, r3, _, hh, _, r4, _, mi, _, r5, _, ss, _, hfin⟩ := h
  by_cases hv : validDT ⟨yy.1, mo.1, dd.1, hh.1, mi.1, ss.1⟩ = true
  · rw [if_pos hv] at hfin
    injection hfin with hd
    subst hd
    exact hv
  · rw [if_neg hv] at hfin
    exact Option.noConfusion hfin

lemma parse_date_valid {tz : List LChar} {s : LChar} {dt : PyDateTime}
    (h : parse_date tz s = some dt) : validDT dt = true := by
  rw [parse_date] at h
  by_cases he : s.isEmpty = true
  · rw [if_pos he] at h
    exact Option.noConfusion h
  · rw [if_neg he] at h
    split at h
    · rename_i d heq
      injection h with hd
      subst hd
      exact strptimeAttempt_valid heq
    split at h
    · rename_i d heq
      injection h with hd
      subst hd
      exact strptimeAttempt_valid heq
    split at h
    · rename_i d heq
      injection h with hd
      subst hd
      exact strptimeAttempt_valid heq
    split at h
    · rename_i d heq
      injection h with hd
      subst hd
      exact strptimeAttempt_valid heq
    split at h
    · rename_i d heq
      injection h with hd
      subst hd
      exact strptimeAttempt_valid heq
    split at h
    · rename_i d heq
      injection h with hd
      subst hd
      exact strptimeAttempt_valid heq
    split at h
    · rename_i d heq
      injection h with hd
      subst hd
      exact strptimeAttempt_valid heq
    exact fallbackIso_valid h

lemma dtLe_min_of_valid {dt : PyDateTime} (h : validDT dt = true) : dtLe dtMin dt = true := by
  rw [validDT] at h
  simp only [Bool.and_eq_true, decide_eq_true_eq] at h
  rw [dtLe_iff]
  simp only [dtMin]
  omega

lemma digitChar_isDigit {m : Nat} (h : m < 10) : (digitChar m).isDigit = true := by
  interval_cases m <;> decide

lemma isYmdShape_fmtYMD (dt : PyDateTime) : isYmdShape (fmtYMD dt) = true := by
  have hd : ∀ n : Nat, (digitChar (n % 10)).isDigit = true :=
    fun n => digitChar_isDigit (Nat.mod_lt _ (by norm_num))
  simp only [fmtYMD, pad4, pad2, List.cons_append, List.nil_append, isYmdShape]
  simp [hd]

/-- C4 counterexample: under the export sort, the unknown-date candidate
(`sort key = datetime.min` by the `or datetime.min` default) ties with a
candidate whose date string parses to exactly `datetime.min`, and the
stable sort keeps their input order — so an unknown-date row is placed
BEFORE a known-date row, refuting "every unknown-date row positioned
after every known-date row". -/
theorem C4_counterexample :
    sorted_articles tzUtc [artUnk, artMin] = [artUnk, artMin] ∧
    parse_date tzUtc artUnk.publish_date = none ∧
    parse_date tzUtc artMin.publish_date = some dtMin :=
  ⟨by decide, by decide, by decide⟩

/-- C4 (amended): the Exporter writes the rows of the input sorted by the
key `parse_date(...) or datetime.min` descending; every known-date row
appearing after an unknown-date row has parsed date exactly
`datetime.min` (so unknown rows come after all rows with a later parsed
date, and tie in input order with rows parsing to `datetime.min`); the
`publish_date` column is the zero-padded `YYYY-MM-DD` rendering for
parsable dates and the empty string for unknown dates. -/
theorem C4_export_rows_sorted (tz : List LChar) (articles : List Article) :
    write_csv_rows tz articles = (sorted_articles tz articles).map (csvRowOf tz) ∧
    (sorted_articles tz articles).Pairwise
      (fun a b => dtLe (sortKey tz b) (sortKey tz a) = true) ∧
    (sorted_articles tz articles).Pairwise
      (fun a b => parse_date tz a.publish_date = none →
        ∀ dt, parse_date tz b.publish_date = some dt → dt = dtMin) ∧
    (∀ a : Article,
      (parse_date tz a.publish_date = none → (csvRowOf tz a).publish_date = []) ∧
      (∀ dt, parse_date tz a.publish_date = some dt →
        (csvRowOf tz a).publish_date = fmtYMD dt ∧ isYmdShape (fmtYMD dt) = true)) := by
  refine ⟨rfl, sortByKeyDesc_pairwise _ _, ?_, ?_⟩
  · refine List.Pairwise.imp ?_ (sortByKeyDesc_pairwise (sortKey tz) articles)
    intro a b hle hna dt hbd
    have hka : sortKey tz a = dtMin := by rw [sortKey, hna]; rfl
    have hkb : sortKey tz b = dt := by rw [sortKey, hbd]; rfl
    rw [hka, hkb] at hle
    exact dtLe_antisymm hle (dtLe_min_of_valid (parse_date_valid hbd))
  · intro a
    constructor
    · intro hna
      simp [csvRowOf, hna]
    · intro dt hda
      exact ⟨by simp [csvRowOf, hda], isYmdShape_fmtYMD dt⟩

/-- Witness for the amended C4 at a concrete input: the unknown-date row
renders an empty date column, and the `datetime.min` row renders its
zero-padded `YYYY-MM-DD` form. -/
theorem C4_export_rows_sorted_witness :
    (csvRowOf tzUtc artUnk).publish_date = [] ∧
    (csvRowOf tzUtc artMin).publish_date = fmtYMD dtMin ∧
    isYmdShape (fmtYMD dtMin) = true :=
  ⟨((C4_export_rows_sorted tzUtc [artUnk, artMin]).2.2.2 artUnk).1 (by decide),
   (((C4_export_rows_sorted tzUtc [artUnk, artMin]).2.2.2 artMin).2 dtMin (by decide)).1,
   (((C4_export_rows_sorted tzUtc [artUnk, artMin]).2.2.2 artMin).2 dtMin (by decide)).2⟩
